import Mathlib

/-!
Verification of the stencil-based differential and filtering engine of the
pycsou/pyxu repository: the `_StencilOp` operator (operator/linop/base.py),
the finite-difference and Gaussian-derivative coefficient generators and
differential-operator builders (operator/linop/diff.py), and the filter
builders (operator/linop/filter.py).

Signals are modelled as rational-valued functions on integer grids; a
`D`-dimensional index is a function `Fin D → ℤ`.  The per-element correlation
performed by the compiled stencil kernels (`pycsou.math.stencil`, not part of
the sources) is modelled from the specification and from the formula stated in
the `_PartialDerivative` docstring of operator/linop/diff.py:
`y[i_1,…,i_D] = ∑_q x[i_1 - c_1 + q_1, …] * k[q_1,…,q_D]`,
with zero boundary extension (boundary mode "constant").
-/

namespace PycsouStencil

/-- A `D`-dimensional integer grid index. -/
abbrev Index (D : ℕ) := Fin D → ℤ

/-- The index box `[0, n_1) × … × [0, n_D)` of an array of shape `n`. -/
def box {D : ℕ} (n : Fin D → ℕ) : Finset (Index D) :=
  Fintype.piFinset fun d => Finset.Ico (0 : ℤ) (n d)

lemma mem_box {D : ℕ} {n : Fin D → ℕ} {i : Index D} :
    i ∈ box n ↔ ∀ d, 0 ≤ i d ∧ i d < n d := by
  simp [box, Fintype.mem_piFinset]

/-- Zero boundary extension of a signal of shape `n` (mode "constant"). -/
def extendZ {D : ℕ} (n : Fin D → ℕ) (x : Index D → ℚ) : Index D → ℚ :=
  fun i => if i ∈ box n then x i else 0

lemma extendZ_eq_zero {D : ℕ} {n : Fin D → ℕ} {x : Index D → ℚ} {i : Index D}
    (h : i ∉ box n) : extendZ n x i = 0 := by
  simp [extendZ, h]

lemma extendZ_eq_self {D : ℕ} {n : Fin D → ℕ} {x : Index D → ℚ} {i : Index D}
    (h : i ∈ box n) : extendZ n x i = x i := by
  simp [extendZ, h]

/-- The kernel shape viewed as an integer index (used in flip arithmetic). -/
def mz {D : ℕ} (m : Fin D → ℕ) : Index D := fun d => (m d : ℤ)

/-- Correlation of a signal of shape `n` with a kernel of shape `m` and center
`c`, out-of-range taps resolved by zero fill.  Modelled from the spec and the
`_PartialDerivative` docstring: `y[i] = ∑_q x[i - c + q] * k[q]`. -/
def corr {D : ℕ} (m : Fin D → ℕ) (c : Index D) (k : Index D → ℚ)
    (n : Fin D → ℕ) (x : Index D → ℚ) : Index D → ℚ :=
  fun i => ∑ q ∈ box m, extendZ n x (i - c + q) * k q

/-- Adjoint kernel, from `_StencilOp._sanitize_inputs`:
`self.stencil_coefs_adjoint = xp.flip(stencil_coefs)` (axis-wise reversal). -/
def stencil_coefs_adjoint {D : ℕ} (m : Fin D → ℕ) (k : Index D → ℚ) :
    Index D → ℚ :=
  fun q => k (mz m - 1 - q)

/-- Adjoint center, from `_StencilOp._sanitize_inputs`:
`self.center_adjoint = np.array(stencil_coefs.shape) - 1 - center`. -/
def center_adjoint {D : ℕ} (m : Fin D → ℕ) (c : Index D) : Index D :=
  mz m - 1 - c

/-- Inner product of two signals of shape `n`. -/
def ip {D : ℕ} (n : Fin D → ℕ) (f g : Index D → ℚ) : ℚ :=
  ∑ i ∈ box n, f i * g i

/-- Shifting a summation over functions that vanish outside `S`. -/
lemma sum_shift {G : Type} [AddCommGroup G] [DecidableEq G] (S : Finset G)
    (f g : G → ℚ) (hf : ∀ i, i ∉ S → f i = 0) (hg : ∀ i, i ∉ S → g i = 0)
    (t : G) :
    ∑ i ∈ S, f (i + t) * g i = ∑ j ∈ S, f j * g (j - t) := by
  classical
  have h1 : ∑ i ∈ S, f (i + t) * g i
      = ∑ i ∈ S ∪ S.image (fun j => j - t), f (i + t) * g i := by
    refine Finset.sum_subset Finset.subset_union_left ?_
    intro i _ hiS
    rw [hg i hiS, mul_zero]
  have h2 : ∑ i ∈ S ∪ S.image (fun j => j - t), f (i + t) * g i
      = ∑ j ∈ (S ∪ S.image (fun j => j - t)).image (fun i => i + t),
          f j * g (j - t) := by
    rw [Finset.sum_image (by intro a _ b _ hab; exact add_right_cancel hab)]
    refine Finset.sum_congr rfl fun i _ => ?_
    rw [add_sub_cancel_right]
  have h3 : ∑ j ∈ (S ∪ S.image (fun j => j - t)).image (fun i => i + t),
      f j * g (j - t) = ∑ j ∈ S, f j * g (j - t) := by
    symm
    refine Finset.sum_subset ?_ ?_
    · intro j hj
      refine Finset.mem_image.mpr ⟨j - t, ?_, by rw [sub_add_cancel]⟩
      exact Finset.mem_union_right _ (Finset.mem_image_of_mem _ hj)
    · intro j _ hjS
      rw [hf j hjS, zero_mul]
  rw [h1, h2, h3]

/-- The kernel box is mapped to itself by the axis-wise flip `q ↦ m - 1 - q`. -/
lemma flip_mem_box {D : ℕ} {m : Fin D → ℕ} {q : Index D} (hq : q ∈ box m) :
    mz m - 1 - q ∈ box m := by
  rw [mem_box] at hq ⊢
  intro d
  have h := hq d
  simp only [mz, Pi.sub_apply, Pi.one_apply]
  omega

/-- The full inner-product identity for the constant (zero-fill) boundary mode:
`⟨corr(x), y⟩ = ⟨x, corr_adjoint(y)⟩` where the adjoint correlation uses the
flipped kernel and reflected center. -/
lemma ip_corr_eq {D : ℕ} (m : Fin D → ℕ) (c : Index D) (k : Index D → ℚ)
    (n : Fin D → ℕ) (x y : Index D → ℚ) :
    ip n (corr m c k n x) y
      = ip n x (corr m (center_adjoint m c) (stencil_coefs_adjoint m k) n y) := by
  classical
  unfold ip corr
  have lhs1 : ∑ i ∈ box n, (∑ q ∈ box m, extendZ n x (i - c + q) * k q) * y i
      = ∑ q ∈ box m, (∑ i ∈ box n,
          extendZ n x (i + (q - c)) * extendZ n y i) * k q := by
    simp only [Finset.sum_mul]
    rw [Finset.sum_comm]
    refine Finset.sum_congr rfl fun q _ => ?_
    refine Finset.sum_congr rfl fun i hi => ?_
    have e1 : i - c + q = i + (q - c) := by abel
    rw [e1, extendZ_eq_self hi]
    ring
  have lhs2 : ∑ q ∈ box m, (∑ i ∈ box n,
        extendZ n x (i + (q - c)) * extendZ n y i) * k q
      = ∑ q ∈ box m, (∑ j ∈ box n, x j * extendZ n y (j + c - q)) * k q := by
    refine Finset.sum_congr rfl fun q _ => ?_
    rw [sum_shift (box n) (extendZ n x) (extendZ n y)
      (fun i hi => extendZ_eq_zero hi) (fun i hi => extendZ_eq_zero hi) (q - c)]
    refine congrArg (· * k q) ?_
    refine Finset.sum_congr rfl fun j hj => ?_
    have e2 : j - (q - c) = j + c - q := by abel
    rw [e2, extendZ_eq_self hj]
  have rhs1 : ∀ j, ∑ q ∈ box m, extendZ n y (j - center_adjoint m c + q)
        * stencil_coefs_adjoint m k q
      = ∑ q ∈ box m, extendZ n y (j + c - q) * k q := by
    intro j
    refine Finset.sum_nbij' (fun q => mz m - 1 - q) (fun q => mz m - 1 - q)
      (fun q hq => flip_mem_box hq) (fun q hq => flip_mem_box hq)
      (fun q _ => sub_sub_cancel _ _) (fun q _ => sub_sub_cancel _ _) ?_
    intro q hq
    unfold stencil_coefs_adjoint center_adjoint
    show extendZ n y (j - (mz m - 1 - c) + q) * k (mz m - 1 - q)
      = extendZ n y (j + c - (mz m - 1 - q)) * k (mz m - 1 - q)
    have e4 : j - (mz m - 1 - c) + q = j + c - (mz m - 1 - q) := by abel
    rw [e4]
  rw [lhs1, lhs2]
  simp only [Finset.sum_mul]
  rw [Finset.sum_comm]
  refine Finset.sum_congr rfl fun j _ => ?_
  rw [rhs1 j, Finset.mul_sum]
  refine Finset.sum_congr rfl fun q _ => ?_
  ring

/-- Per-axis kernel radius: the larger of the left reach `c[d]` and the right
reach `m[d] - 1 - c[d]` of the kernel. -/
def kernel_radius {D : ℕ} (m : Fin D → ℕ) (c : Index D) : Fin D → ℤ :=
  fun d => max (c d) ((m d : ℤ) - 1 - c d)

/-- Array positions at distance at least the kernel radius from every
boundary. -/
def interiorPos {D : ℕ} (n m : Fin D → ℕ) (c : Index D) (i : Index D) : Prop :=
  ∀ d, kernel_radius m c d ≤ i d ∧ i d < (n d : ℤ) - kernel_radius m c d

instance {D : ℕ} (n m : Fin D → ℕ) (c : Index D) (i : Index D) :
    Decidable (interiorPos n m c i) := by
  unfold interiorPos
  infer_instance

/-- C1: for every Stencil operator, the adjoint kernel is the axis-wise
reversal of the forward kernel with `adjoint_center[d] = m[d] - 1 - center[d]`
(`_StencilOp._sanitize_inputs`), and for the constant boundary mode the
inner-product identity `⟨apply(x), y⟩ = ⟨x, adjoint(y)⟩` holds for signals
restricted to array positions at distance at least the kernel radius from
every boundary. -/
theorem stencil_adjoint_identity {D : ℕ} (m n : Fin D → ℕ) (c : Index D)
    (k : Index D → ℚ) (x y : Index D → ℚ)
    (hx : ∀ i ∈ box n, ¬ interiorPos n m c i → x i = 0)
    (hy : ∀ i ∈ box n, ¬ interiorPos n m c i → y i = 0) :
    stencil_coefs_adjoint m k = (fun q => k (mz m - 1 - q)) ∧
    center_adjoint m c = mz m - 1 - c ∧
    ip n (corr m c k n x) y
      = ip n x (corr m (center_adjoint m c) (stencil_coefs_adjoint m k) n y) :=
  ⟨rfl, rfl, ip_corr_eq m c k n x y⟩

/-- Concrete data for the C1 witness: a 1-D signal of length 5, kernel of
length 3 centered at 1, signals supported on the interior `{1, 2, 3}`. -/
abbrev w1n : Fin 1 → ℕ := fun _ => 5

abbrev w1m : Fin 1 → ℕ := fun _ => 3

abbrev w1c : Index 1 := fun _ => 1

abbrev w1k : Index 1 → ℚ := fun q => (q 0 : ℚ) + 1

abbrev w1x : Index 1 → ℚ := fun i => if i 0 = 2 then 3 else 0

abbrev w1y : Index 1 → ℚ := fun i => if i 0 = 1 then 2 else if i 0 = 3 then 5 else 0

theorem stencil_adjoint_identity_witness :
    (∀ i ∈ box w1n, ¬ interiorPos w1n w1m w1c i → w1x i = 0) ∧
    (∀ i ∈ box w1n, ¬ interiorPos w1n w1m w1c i → w1y i = 0) ∧
    ip w1n (corr w1m w1c w1k w1n w1x) w1y
      = ip w1n w1x
          (corr w1m (center_adjoint w1m w1c) (stencil_coefs_adjoint w1m w1k)
            w1n w1y) :=
  ⟨by decide, by decide,
    (stencil_adjoint_identity w1m w1n w1c w1k w1x w1y (by decide)
      (by decide)).2.2⟩

/-- Maximum absolute kernel coefficient, from `_StencilOp.__init__`:
`abs(self.stencil_coefs).max()`.  Folding `max` with initial value `0` agrees
with the numpy maximum on a nonempty kernel since all values are `≥ 0`. -/
def maxAbsCoef {D : ℕ} (m : Fin D → ℕ) (k : Index D → ℚ) : ℚ :=
  (box m).fold max 0 fun q => |k q|

/-- Sum of the absolute kernel coefficients. -/
def l1norm {D : ℕ} (m : Fin D → ℕ) (k : Index D → ℚ) : ℚ :=
  ∑ q ∈ box m, |k q|

/-- The Lipschitz estimate set at construction, from `_StencilOp.__init__`:
`self._lipschitz = 2 * abs(self.stencil_coefs).max()`. -/
def stencil_lipschitz {D : ℕ} (m : Fin D → ℕ) (k : Index D → ℚ) : ℚ :=
  2 * maxAbsCoef m k

/-- Weighted Cauchy-Schwarz inequality over a finite index set. -/
lemma weighted_cauchy_schwarz {ι : Type} (s : Finset ι) (w y : ι → ℚ)
    (hw : ∀ i ∈ s, 0 ≤ w i) :
    (∑ i ∈ s, w i * y i) ^ 2
      ≤ (∑ i ∈ s, w i) * (∑ i ∈ s, w i * y i ^ 2) := by
  classical
  have expand : ∀ i ∈ s, ∑ j ∈ s, w i * w j * (y i - y j) ^ 2
      = w i * y i ^ 2 * (∑ j ∈ s, w j)
        - w i * y i * (2 * ∑ j ∈ s, w j * y j)
        + w i * (∑ j ∈ s, w j * y j ^ 2) := by
    intro i _
    have e : ∀ j ∈ s, w i * w j * (y i - y j) ^ 2
        = w i * y i ^ 2 * w j - w i * y i * (2 * (w j * y j))
          + w i * (w j * y j ^ 2) := fun j _ => by ring
    rw [Finset.sum_congr rfl e, Finset.sum_add_distrib, Finset.sum_sub_distrib,
      ← Finset.mul_sum, ← Finset.mul_sum, ← Finset.mul_sum, ← Finset.mul_sum]
  have key : ∑ i ∈ s, ∑ j ∈ s, w i * w j * (y i - y j) ^ 2
      = 2 * ((∑ i ∈ s, w i) * (∑ i ∈ s, w i * y i ^ 2)
          - (∑ i ∈ s, w i * y i) ^ 2) := by
    rw [Finset.sum_congr rfl expand, Finset.sum_add_distrib,
      Finset.sum_sub_distrib, ← Finset.sum_mul, ← Finset.sum_mul,
      ← Finset.sum_mul]
    ring
  have hpos : 0 ≤ ∑ i ∈ s, ∑ j ∈ s, w i * w j * (y i - y j) ^ 2 := by
    refine Finset.sum_nonneg fun i hi => Finset.sum_nonneg fun j hj => ?_
    exact mul_nonneg (mul_nonneg (hw i hi) (hw j hj)) (sq_nonneg _)
  nlinarith [key, hpos]

/-- A shifted, zero-extended signal has no larger energy than the original. -/
lemma sum_sq_shift_le {D : ℕ} (n : Fin D → ℕ) (x : Index D → ℚ)
    (t : Index D) :
    ∑ i ∈ box n, extendZ n x (i + t) ^ 2 ≤ ∑ j ∈ box n, x j ^ 2 := by
  classical
  have h1 : ∑ i ∈ box n, extendZ n x (i + t) ^ 2
      = ∑ j ∈ (box n).image (fun i => i + t), extendZ n x j ^ 2 := by
    rw [Finset.sum_image (by intro a _ b _ hab; exact add_right_cancel hab)]
  have h2 : ∑ j ∈ (box n).image (fun i => i + t), extendZ n x j ^ 2
      ≤ ∑ j ∈ (box n).image (fun i => i + t) ∪ box n, extendZ n x j ^ 2 :=
    Finset.sum_le_sum_of_subset_of_nonneg Finset.subset_union_left
      fun j _ _ => sq_nonneg _
  have h3 : ∑ j ∈ (box n).image (fun i => i + t) ∪ box n, extendZ n x j ^ 2
      = ∑ j ∈ box n, extendZ n x j ^ 2 := by
    symm
    refine Finset.sum_subset Finset.subset_union_right ?_
    intro j _ hj
    rw [extendZ_eq_zero hj]
    norm_num
  have h4 : ∑ j ∈ box n, extendZ n x j ^ 2 = ∑ j ∈ box n, x j ^ 2 :=
    Finset.sum_congr rfl fun j hj => by rw [extendZ_eq_self hj]
  calc ∑ i ∈ box n, extendZ n x (i + t) ^ 2
      = ∑ j ∈ (box n).image (fun i => i + t), extendZ n x j ^ 2 := h1
    _ ≤ ∑ j ∈ (box n).image (fun i => i + t) ∪ box n, extendZ n x j ^ 2 := h2
    _ = ∑ j ∈ box n, extendZ n x j ^ 2 := h3
    _ = ∑ j ∈ box n, x j ^ 2 := h4

/-- Young-type bound: the energy of the correlation output is bounded by the
squared ℓ¹ norm of the kernel times the input energy. -/
lemma corr_energy_bound {D : ℕ} (m : Fin D → ℕ) (c : Index D)
    (k : Index D → ℚ) (n : Fin D → ℕ) (x : Index D → ℚ) :
    ip n (corr m c k n x) (corr m c k n x) ≤ l1norm m k ^ 2 * ip n x x := by
  classical
  have ipsq : ∀ f : Index D → ℚ, ip n f f = ∑ i ∈ box n, f i ^ 2 := by
    intro f
    exact Finset.sum_congr rfl fun i _ => (sq (f i)).symm
  rw [ipsq, ipsq]
  have step1 : ∀ i, corr m c k n x i ^ 2
      ≤ l1norm m k * ∑ q ∈ box m, |k q| * extendZ n x (i - c + q) ^ 2 := by
    intro i
    have habs : |corr m c k n x i|
        ≤ ∑ q ∈ box m, |k q| * |extendZ n x (i - c + q)| := by
      refine le_trans (Finset.abs_sum_le_sum_abs _ _) ?_
      refine Finset.sum_le_sum fun q _ => ?_
      rw [abs_mul, mul_comm]
    calc corr m c k n x i ^ 2 = |corr m c k n x i| ^ 2 := (sq_abs _).symm
      _ ≤ (∑ q ∈ box m, |k q| * |extendZ n x (i - c + q)|) ^ 2 := by
          exact pow_le_pow_left₀ (abs_nonneg _) habs 2
      _ ≤ (∑ q ∈ box m, |k q|)
            * (∑ q ∈ box m, |k q| * |extendZ n x (i - c + q)| ^ 2) :=
          weighted_cauchy_schwarz (box m) _ _ fun q _ => abs_nonneg _
      _ = l1norm m k * ∑ q ∈ box m, |k q| * extendZ n x (i - c + q) ^ 2 := by
          unfold l1norm
          refine congrArg _ (Finset.sum_congr rfl fun q _ => ?_)
          rw [sq_abs]
  calc ∑ i ∈ box n, corr m c k n x i ^ 2
      ≤ ∑ i ∈ box n,
          l1norm m k * ∑ q ∈ box m, |k q| * extendZ n x (i - c + q) ^ 2 :=
        Finset.sum_le_sum fun i _ => step1 i
    _ = l1norm m k * ∑ q ∈ box m,
          |k q| * ∑ i ∈ box n, extendZ n x (i + (q - c)) ^ 2 := by
        rw [← Finset.mul_sum]
        refine congrArg _ ?_
        rw [Finset.sum_comm]
        refine Finset.sum_congr rfl fun q _ => ?_
        rw [Finset.mul_sum]
        refine Finset.sum_congr rfl fun i _ => ?_
        have e : i - c + q = i + (q - c) := by abel
        rw [e]
    _ ≤ l1norm m k * ∑ q ∈ box m, |k q| * ∑ j ∈ box n, x j ^ 2 := by
        refine mul_le_mul_of_nonneg_left ?_ ?_
        · refine Finset.sum_le_sum fun q _ => ?_
          exact mul_le_mul_of_nonneg_left (sum_sq_shift_le n x (q - c))
            (abs_nonneg _)
        · exact Finset.sum_nonneg fun q _ => abs_nonneg _
    _ = l1norm m k ^ 2 * ∑ j ∈ box n, x j ^ 2 := by
        rw [← Finset.sum_mul]
        unfold l1norm
        ring

/-- Every absolute kernel coefficient is bounded by `maxAbsCoef`. -/
lemma abs_le_maxAbsCoef {D : ℕ} (m : Fin D → ℕ) (k : Index D → ℚ)
    {q : Index D} (hq : q ∈ box m) : |k q| ≤ maxAbsCoef m k := by
  unfold maxAbsCoef
  rw [Finset.le_fold_max]
  exact Or.inr ⟨q, hq, le_refl _⟩

/-- C4 (amended): the Lipschitz estimate set at construction equals
`2 * max |kernel coefficients|` (`_StencilOp.__init__`), the correlation obeys
the energy bound `‖apply(x)‖² ≤ (∑|k|)² ‖x‖²`, and whenever
`∑|k| ≤ 2·max|k|` the constructed estimate is a sound bound; it is *not* a
sound bound for every kernel (see `stencil_lipschitz_unsound`). -/
theorem stencil_lipschitz_estimate {D : ℕ} (m n : Fin D → ℕ) (c : Index D)
    (k : Index D → ℚ) :
    stencil_lipschitz m k = 2 * maxAbsCoef m k ∧
    (∀ x, ip n (corr m c k n x) (corr m c k n x) ≤ l1norm m k ^ 2 * ip n x x) ∧
    (l1norm m k ≤ stencil_lipschitz m k →
      ∀ x, ip n (corr m c k n x) (corr m c k n x)
        ≤ stencil_lipschitz m k ^ 2 * ip n x x) := by
  refine ⟨rfl, fun x => corr_energy_bound m c k n x, fun hl x => ?_⟩
  refine le_trans (corr_energy_bound m c k n x) ?_
  have hip : 0 ≤ ip n x x :=
    Finset.sum_nonneg fun i _ => mul_self_nonneg _
  have hl1 : 0 ≤ l1norm m k := Finset.sum_nonneg fun q _ => abs_nonneg _
  exact mul_le_mul_of_nonneg_right (pow_le_pow_left₀ hl1 hl 2) hip

/-- One-dimensional boxes can be summed as ranges (evaluation helper). -/
lemma sum_box_one {M : Type} [AddCommMonoid M] (N : ℕ) (f : Index 1 → M) :
    ∑ i ∈ box (fun _ => N), f i
      = ∑ j ∈ Finset.range N, f (fun _ => (j : ℤ)) := by
  refine Finset.sum_nbij' (fun i => (i 0).toNat)
    (fun j _ => (j : ℤ)) ?_ ?_ ?_ ?_ ?_
  · intro i hi
    have h := mem_box.mp hi 0
    show (i 0).toNat ∈ Finset.range N
    rw [Finset.mem_range]
    omega
  · intro j hj
    rw [Finset.mem_range] at hj
    show (fun _ => (j : ℤ)) ∈ box (fun _ : Fin 1 => N)
    rw [mem_box]
    intro d
    show (0 : ℤ) ≤ (j : ℤ) ∧ ((j : ℤ) : ℤ) < N
    omega
  · intro i hi
    have h := mem_box.mp hi 0
    show (fun _ => (((i 0).toNat : ℕ) : ℤ)) = i
    funext d
    have hd : d = 0 := Subsingleton.elim d 0
    rw [hd]
    show ((i 0).toNat : ℤ) = i 0
    omega
  · intro j _
    show ((j : ℤ)).toNat = j
    omega
  · intro i hi
    have h := mem_box.mp hi 0
    have hfun : (fun _ => (((i 0).toNat : ℕ) : ℤ)) = i := by
      funext d
      have hd : d = 0 := Subsingleton.elim d 0
      rw [hd]
      show ((i 0).toNat : ℤ) = i 0
      omega
    show f i = f (fun _ => (((i 0).toNat : ℕ) : ℤ))
    rw [hfun]

/-- Concrete data refuting soundness of the construction-time Lipschitz
estimate: kernel `[1,1,1]` with center 1 on a length-3 signal of ones. -/
abbrev c4n : Fin 1 → ℕ := fun _ => 3

abbrev c4k : Index 1 → ℚ := fun _ => 1

abbrev c4x : Index 1 → ℚ := fun _ => 1

lemma maxAbsCoef_c4 (N : ℕ) (h : 0 < N) :
    maxAbsCoef (fun _ : Fin 1 => N) c4k = 1 := by
  unfold maxAbsCoef
  refine le_antisymm ?_ ?_
  · rw [Finset.fold_max_le]
    refine ⟨by norm_num, fun q _ => ?_⟩
    simp [c4k]
  · rw [Finset.le_fold_max]
    refine Or.inr ⟨(fun _ => 0), ?_, by simp [c4k]⟩
    rw [mem_box]
    intro d
    omega

lemma card_box_one (N : ℕ) : (box (fun _ : Fin 1 => N)).card = N := by
  unfold box
  rw [Fintype.card_piFinset]
  simp

/-- C4 counterexample: for kernel `[1, 1, 1]` the construction-time estimate
`2·max|k| = 2` is not an upper bound on the operator norm:
`‖apply(x)‖² = 17 > 12 = (2·max|k|)²·‖x‖²` for `x = [1,1,1]`. -/
theorem stencil_lipschitz_unsound :
    stencil_lipschitz c4n c4k ^ 2 * ip c4n c4x c4x
      < ip c4n (corr c4n w1c c4k c4n c4x) (corr c4n w1c c4k c4n c4x) := by
  have hl : stencil_lipschitz c4n c4k = 2 := by
    unfold stencil_lipschitz
    rw [maxAbsCoef_c4 3 (by norm_num)]
    norm_num
  have hx : ip c4n c4x c4x = 3 := by
    unfold ip c4x
    rw [Finset.sum_const, card_box_one]
    norm_num
  have hc : ip c4n (corr c4n w1c c4k c4n c4x) (corr c4n w1c c4k c4n c4x)
      = 17 := by
    unfold ip
    rw [sum_box_one]
    have hval : ∀ jv : ℕ, corr c4n w1c c4k c4n c4x (fun _ => (jv : ℤ))
        = ∑ q ∈ Finset.range 3,
            (if 0 ≤ (jv : ℤ) - 1 + (q : ℤ) ∧ (jv : ℤ) - 1 + (q : ℤ) < 3
              then (1 : ℚ) else 0) := by
      intro jv
      unfold corr
      rw [sum_box_one]
      refine Finset.sum_congr rfl fun q _ => ?_
      unfold extendZ c4k c4x
      rw [mul_one]
      have hmem : ((fun _ => (jv : ℤ)) - w1c + (fun _ => (q : ℤ)) : Index 1)
            ∈ box (fun _ => 3)
          ↔ (0 ≤ (jv : ℤ) - 1 + (q : ℤ) ∧ (jv : ℤ) - 1 + (q : ℤ) < 3) := by
        rw [mem_box]
        constructor
        · intro h
          have := h 0
          simp only [Pi.sub_apply, Pi.add_apply, w1c] at this
          exact_mod_cast this
        · intro h d
          simp only [Pi.sub_apply, Pi.add_apply, w1c]
          exact_mod_cast h
      by_cases hcase : 0 ≤ (jv : ℤ) - 1 + (q : ℤ) ∧ (jv : ℤ) - 1 + (q : ℤ) < 3
      · rw [if_pos (hmem.mpr hcase), if_pos hcase]
      · rw [if_neg (fun hmm => hcase (hmem.mp hmm)), if_neg hcase]
    rw [Finset.sum_range_succ, Finset.sum_range_succ, Finset.sum_range_one]
    rw [hval 0, hval 1, hval 2]
    simp only [Finset.sum_range_succ, Finset.sum_range_zero]
    norm_num
  rw [hl, hx, hc]
  norm_num

/-- Witness data for the amended C4 theorem: the two-tap kernel `[1, 1]`. -/
abbrev c4wm : Fin 1 → ℕ := fun _ => 2

abbrev c4wc : Index 1 := fun _ => 0

lemma l1norm_c4w_le : l1norm c4wm c4k ≤ stencil_lipschitz c4wm c4k := by
  have h1 : l1norm c4wm c4k = 2 := by
    unfold l1norm
    have : ∀ q ∈ box c4wm, |c4k q| = 1 := fun q _ => by simp [c4k]
    rw [Finset.sum_congr rfl this, Finset.sum_const, card_box_one]
    norm_num
  have h2 : stencil_lipschitz c4wm c4k = 2 := by
    unfold stencil_lipschitz
    rw [maxAbsCoef_c4 2 (by norm_num)]
    norm_num
  rw [h1, h2]

theorem stencil_lipschitz_estimate_witness :
    l1norm c4wm c4k ≤ stencil_lipschitz c4wm c4k ∧
    ip c4n (corr c4wm c4wc c4k c4n c4x) (corr c4wm c4wc c4k c4n c4x)
      ≤ stencil_lipschitz c4wm c4k ^ 2 * ip c4n c4x c4x :=
  ⟨l1norm_c4w_le,
    (stencil_lipschitz_estimate c4wm c4n c4wc c4k).2.2 l1norm_c4w_le c4x⟩

/-- Execution backends selected by the runtime array type
(`pycu.redirect("arr", DASK=_apply_dask, CUPY=_apply_cupy)` on
`_StencilOp._apply_dispatch`). -/
inductive Backend
  | NUMPY
  | DASK
  | CUPY

/-- The local (haloed) array of the chunk `[a, b)` in the dask path.  Each
chunk is extended by `width` halo elements per side (`depth=self.width` in
`_apply_dask`, with `width = (center[d], m[d] - 1 - center[d])` from
`_StencilOp._set_width`); halo values come from the neighbouring chunks, i.e.
from the global array, with the stencil's own zero fill beyond the global
boundary. -/
def chunk_local {D : ℕ} (m : Fin D → ℕ) (c : Index D) (n : Fin D → ℕ)
    (x : Index D → ℚ) (a b : Index D) : Index D → ℚ :=
  fun t =>
    if ∀ d, 0 ≤ t d ∧ t d < (b d - a d) + c d + ((m d : ℤ) - 1 - c d)
    then extendZ n x (a - c + t) else 0

/-- Chunked evaluation (`_StencilOp._apply_dask`, modelled from the spec):
the same stencil formula is applied to the local haloed array of the chunk
containing the output position; `i - a + c` is the local index of the global
position `i` (the chunk is extended by `c d` elements to the left). -/
def apply_dask {D : ℕ} (m : Fin D → ℕ) (c : Index D) (k : Index D → ℚ)
    (n : Fin D → ℕ) (x : Index D → ℚ) (a b : Index D) : Index D → ℚ :=
  fun i => ∑ q ∈ box m, chunk_local m c n x a b (i - a + c - c + q) * k q

/-- Per-axis number of blocks, from `_StencilOp._get_gpu_config`:
`blockspergrid = ceil(shape[d] / tpb[d])`. -/
def blocks_per_grid (e t : ℕ) : ℕ := (e + t - 1) / t

/-- A coordinate is covered by the device grid when some (block, thread) pair
maps to it. -/
def gpu_covered (t bpg : ℕ) (z : ℤ) : Prop :=
  ∃ blk th : ℕ, blk < bpg ∧ th < t ∧ z = blk * t + th

instance (t bpg : ℕ) (z : ℤ) : Decidable (gpu_covered t bpg z) := by
  unfold gpu_covered
  have : (∃ blk th : ℕ, blk < bpg ∧ th < t ∧ z = blk * t + th)
      ↔ ∃ blk < bpg, ∃ th < t, z = blk * t + th := by
    constructor
    · rintro ⟨blk, th, h1, h2, h3⟩
      exact ⟨blk, h1, th, h2, h3⟩
    · rintro ⟨blk, h1, th, h2, h3⟩
      exact ⟨blk, th, h1, h2, h3⟩
  rw [this]
  infer_instance

/-- GPU evaluation (`_StencilOp._apply_cupy`; the device kernel
`make_nd_stencil_gpu` is modelled from the spec): every position covered by
the computed thread/block grid evaluates the same correlation formula, the
remaining positions of the zero-initialised output stay zero. -/
def apply_cupy {D : ℕ} (m : Fin D → ℕ) (c : Index D) (k : Index D → ℚ)
    (n : Fin D → ℕ) (x : Index D → ℚ) (tpb : Fin D → ℕ) : Index D → ℚ :=
  fun i =>
    if ∀ d, gpu_covered (tpb d) (blocks_per_grid (n d) (tpb d)) (i d)
    then ∑ q ∈ box m, extendZ n x (i - c + q) * k q else 0

/-- Backend dispatch (`_StencilOp._apply_dispatch`). -/
def apply_dispatch {D : ℕ} (bk : Backend) (m : Fin D → ℕ) (c : Index D)
    (k : Index D → ℚ) (n : Fin D → ℕ) (x : Index D → ℚ) (a b : Index D)
    (tpb : Fin D → ℕ) : Index D → ℚ :=
  match bk with
  | .NUMPY => corr m c k n x
  | .DASK => apply_dask m c k n x a b
  | .CUPY => apply_cupy m c k n x tpb

/-- Halo sufficiency: inside its chunk, the chunked evaluation agrees exactly
with the monolithic correlation, because the per-axis halo
`(c d, m d - 1 - c d)` covers the full reach of the kernel. -/
lemma apply_dask_eq_corr {D : ℕ} (m : Fin D → ℕ) (c : Index D)
    (k : Index D → ℚ) (n : Fin D → ℕ) (x : Index D → ℚ) (a b : Index D)
    (i : Index D) (hi : ∀ d, a d ≤ i d ∧ i d < b d) :
    apply_dask m c k n x a b i = corr m c k n x i := by
  unfold apply_dask corr chunk_local
  refine Finset.sum_congr rfl fun q hq => ?_
  have hqm := mem_box.mp hq
  have hloc : ∀ d, 0 ≤ (i - a + c - c + q) d
      ∧ (i - a + c - c + q) d < (b d - a d) + c d + ((m d : ℤ) - 1 - c d) := by
    intro d
    have h1 := hi d
    have h2 := hqm d
    simp only [Pi.add_apply, Pi.sub_apply]
    omega
  rw [if_pos hloc]
  have harg : a - c + (i - a + c - c + q) = i - c + q := by abel
  rw [harg]

/-- Grid coverage: with at least one thread per block in each axis, the
`ceil`-sized grid of `_get_gpu_config` covers every in-range coordinate. -/
lemma gpu_covered_of_lt {e t : ℕ} {z : ℤ} (ht : 1 ≤ t) (h0 : 0 ≤ z)
    (hz : z < e) : gpu_covered t (blocks_per_grid e t) z := by
  refine ⟨z.toNat / t, z.toNat % t, ?_, Nat.mod_lt _ ht, ?_⟩
  · have he : 1 ≤ e := by omega
    have hle : z.toNat / t ≤ (e - 1) / t :=
      Nat.div_le_div_right (by omega)
    have hgrid : blocks_per_grid e t = (e - 1) / t + 1 := by
      unfold blocks_per_grid
      have : e + t - 1 = (e - 1) + t := by omega
      rw [this, Nat.add_div_right _ (by omega)]
    omega
  · have h2 : z.toNat / t * t + z.toNat % t = z.toNat := Nat.div_add_mod' z.toNat t
    have h3 : ((z.toNat / t * t + z.toNat % t : ℕ) : ℤ) = z := by
      rw [h2]
      exact Int.toNat_of_nonneg h0
    exact_mod_cast h3.symm

/-- C2: the three evaluation strategies selected by the runtime array type —
plain CPU loop, GPU tiled-grid kernel over the `ceil(shape/tpb)` grid, and
chunked evaluation with per-axis halo `(center[d], m[d] - 1 - center[d])`
(`_StencilOp._set_width`) — produce identical outputs (hence equal within any
floating-point tolerance) at every in-range position. -/
theorem backend_equivalence {D : ℕ} (m n : Fin D → ℕ) (c : Index D)
    (k : Index D → ℚ) (x : Index D → ℚ) (a b : Index D) (tpb : Fin D → ℕ)
    (i : Index D) (hibox : i ∈ box n) (hchunk : ∀ d, a d ≤ i d ∧ i d < b d)
    (htpb : ∀ d, 1 ≤ tpb d) :
    apply_dispatch .DASK m c k n x a b tpb i
      = apply_dispatch .NUMPY m c k n x a b tpb i ∧
    apply_dispatch .CUPY m c k n x a b tpb i
      = apply_dispatch .NUMPY m c k n x a b tpb i := by
  constructor
  · exact apply_dask_eq_corr m c k n x a b i hchunk
  · show apply_cupy m c k n x tpb i = corr m c k n x i
    unfold apply_cupy corr
    rw [if_pos]
    intro d
    have h := mem_box.mp hibox d
    exact gpu_covered_of_lt (htpb d) h.1 h.2

/-- Witness data for C2: length-4 signal, kernel of length 2 centered at 0,
chunk `[1, 3)`, two threads per block. -/
abbrev c2n : Fin 1 → ℕ := fun _ => 4

abbrev c2m : Fin 1 → ℕ := fun _ => 2

abbrev c2a : Index 1 := fun _ => 1

abbrev c2b : Index 1 := fun _ => 3

abbrev c2i : Index 1 := fun _ => 2

abbrev c2t : Fin 1 → ℕ := fun _ => 2

theorem backend_equivalence_witness :
    apply_dispatch .DASK c2m w1c w1k c2n w1x c2a c2b c2t c2i
      = apply_dispatch .NUMPY c2m w1c w1k c2n w1x c2a c2b c2t c2i ∧
    apply_dispatch .CUPY c2m w1c w1k c2n w1x c2a c2b c2t c2i
      = apply_dispatch .NUMPY c2m w1c w1k c2n w1x c2a c2b c2t c2i :=
  backend_equivalence c2m c2n w1c w1k w1x c2a c2b c2t c2i (by decide)
    (by decide) (by decide)

/-! ### Finite differences (operator/linop/diff.py) -/

/-- Finite-difference schemes accepted by `_FiniteDifference`. -/
inductive FDScheme
  | forward
  | backward
  | central
deriving DecidableEq

/-- Integer range `[lo, hi)` as a list (numpy `arange`). -/
def arangeZ (lo hi : ℤ) : List ℤ :=
  List.map (fun j : ℕ => lo + (j : ℤ)) (List.range (hi - lo).toNat)

/-- `n_coefs` of the central branch of `_FiniteDifference._compute_ids`:
`n_coefs = 2 * ((order + 1) // 2) - 1 + accuracy`. -/
def nCoefsCentral (order accuracy : ℕ) : ℤ :=
  2 * (((order : ℤ) + 1).fdiv 2) - 1 + accuracy

/-- Half width `n_coefs // 2` of the central support. -/
def centralHalf (order accuracy : ℕ) : ℤ := (nCoefsCentral order accuracy).fdiv 2

/-- Support indices, from `_FiniteDifference._compute_ids`:
central: `arange(-(n_coefs // 2), n_coefs // 2 + 1)`;
forward: `arange(0, order + accuracy)`;
backward: `arange(-(order + accuracy) + 1, 1)`. -/
def computeIds (scheme : FDScheme) (order accuracy : ℕ) : List ℤ :=
  match scheme with
  | .central =>
      arangeZ (-(centralHalf order accuracy)) (centralHalf order accuracy + 1)
  | .forward => arangeZ 0 ((order : ℤ) + accuracy)
  | .backward => arangeZ (-((order : ℤ) + accuracy) + 1) 1

/-- `c` solves the generalized Vandermonde system built by
`_FiniteDifference._compute_coefficients`: `stencil_mat = vander(ids).T`
(`V[i,j] = s_j ^ i`), right-hand side `e_order * order!`. -/
def isFDSolution (s : List ℤ) (order : ℕ) (c : List ℚ) : Prop :=
  c.length = s.length ∧
  ∀ i < s.length,
    ∑ j ∈ Finset.range s.length, ((s.getD j 0 : ℚ)) ^ i * c.getD j 0
      = if i = order then (order.factorial : ℚ) else 0

/-- One-dimensional correlation of a finite signal with a list kernel at an
integer position (1-D instance of the stencil evaluation formula, zero fill
outside `[0, n)`). -/
def corr1 (k : List ℚ) (c : ℕ) (n : ℕ) (x : ℤ → ℚ) : ℤ → ℚ :=
  fun i => ∑ q ∈ Finset.range k.length,
    (if 0 ≤ i - c + q ∧ i - c + q < n then x (i - c + q) else 0) * k.getD q 0

/-- The sampled parabola: on `[0, 6)` this is the signal
`[0, 1, 4, 9, 16, 25]`. -/
def xsq : ℤ → ℚ := fun t => (t : ℚ) ^ 2

lemma arangeZ_length (lo hi : ℤ) : (arangeZ lo hi).length = (hi - lo).toNat := by
  unfold arangeZ
  rw [List.length_map, List.length_range]

lemma arangeZ_getD (lo hi : ℤ) (j : ℕ) (hj : j < (hi - lo).toNat) :
    (arangeZ lo hi).getD j 0 = lo + j := by
  have hlen : j < (arangeZ lo hi).length := by rw [arangeZ_length]; exact hj
  rw [List.getD_eq_getElem _ _ hlen]
  simp [arangeZ]

lemma arangeZ_nodup (lo hi : ℤ) : (arangeZ lo hi).Nodup := by
  refine List.Nodup.map ?_ (List.nodup_range _)
  intro a b hab
  simp only [add_right_inj, Nat.cast_inj] at hab
  exact hab

lemma fdiv_two_eq (z : ℤ) : z.fdiv 2 = z / 2 :=
  Int.fdiv_eq_ediv _ (by norm_num)

lemma centralHalf_nonneg (order accuracy : ℕ) (ha : 1 ≤ accuracy) :
    0 ≤ centralHalf order accuracy := by
  unfold centralHalf nCoefsCentral
  rw [fdiv_two_eq, fdiv_two_eq]
  omega

/-- Length of the central support: `2 * (n_coefs // 2) + 1`, i.e. `n_coefs`
rounded up to the next odd integer. -/
lemma central_length (order accuracy : ℕ) (ha : 1 ≤ accuracy) :
    ((computeIds .central order accuracy).length : ℤ)
      = 2 * centralHalf order accuracy + 1 := by
  have h := centralHalf_nonneg order accuracy ha
  unfold computeIds
  rw [arangeZ_length]
  omega

lemma central_getD (order accuracy : ℕ) (ha : 1 ≤ accuracy) (j : ℕ)
    (hj : j < (computeIds .central order accuracy).length) :
    (computeIds .central order accuracy).getD j 0
      = -(centralHalf order accuracy) + j := by
  have h := centralHalf_nonneg order accuracy ha
  unfold computeIds at hj ⊢
  rw [arangeZ_getD]
  rw [arangeZ_length] at hj
  exact hj

/-- C5 counterexample: at `order = 1`, `accuracy = 1` the central support has
3 points, not `2⌊(n+1)/2⌋ - 1 + a = 2`. -/
theorem central_size_formula_fails :
    (computeIds FDScheme.central 1 1).length ≠ 2 * ((1 + 1) / 2) - 1 + 1 := by
  decide

lemma getD_reverse (l : List ℚ) (j : ℕ) (hj : j < l.length) :
    l.reverse.getD j 0 = l.getD (l.length - 1 - j) 0 := by
  rw [List.getD_eq_getElem _ _ (by simpa using hj),
    List.getD_eq_getElem _ _ (by omega)]
  rw [List.getElem_reverse]

/-- The Vandermonde system over distinct support points has at most one
solution: the finite-difference coefficients are determined by the system. -/
lemma fd_solution_unique (s : List ℤ) (hs : s.Nodup) (order : ℕ)
    (c c2 : List ℚ) (h1 : isFDSolution s order c)
    (h2 : isFDSolution s order c2) : c = c2 := by
  classical
  have hget : ∀ (j : Fin s.length), ((s.get j : ℤ) : ℚ) = (s.getD j 0 : ℚ) := by
    intro j
    rw [List.get_eq_getElem, ← List.getD_eq_getElem s 0 j.isLt]
  have hv : Function.Injective fun j : Fin s.length => ((s.get j : ℤ) : ℚ) := by
    intro a b hab
    have hab2 : ((s.get a : ℤ) : ℚ) = ((s.get b : ℤ) : ℚ) := hab
    exact List.nodup_iff_injective_get.mp hs (by exact_mod_cast hab2)
  have hdet :
      ((Matrix.vandermonde fun j : Fin s.length =>
        ((s.get j : ℤ) : ℚ)).transpose).det ≠ 0 := by
    rw [Matrix.det_transpose, Matrix.det_vandermonde]
    refine Finset.prod_ne_zero_iff.mpr fun i _ =>
      Finset.prod_ne_zero_iff.mpr fun j hj => ?_
    refine sub_ne_zero.mpr fun he => ?_
    exact (Finset.mem_Ioi.mp hj).ne (hv he).symm
  have hmv :
      ((Matrix.vandermonde fun j : Fin s.length =>
          ((s.get j : ℤ) : ℚ)).transpose).mulVec
        (fun j : Fin s.length => c.getD j 0)
      = ((Matrix.vandermonde fun j : Fin s.length =>
          ((s.get j : ℤ) : ℚ)).transpose).mulVec
        (fun j : Fin s.length => c2.getD j 0) := by
    funext i
    show ∑ j : Fin s.length, _ = ∑ j : Fin s.length, _
    have hside : ∀ (cc : List ℚ),
        (∑ j : Fin s.length,
            (Matrix.vandermonde fun j : Fin s.length =>
              ((s.get j : ℤ) : ℚ)).transpose i j * cc.getD j 0)
          = ∑ j ∈ Finset.range s.length,
              ((s.getD j 0 : ℚ)) ^ (i : ℕ) * cc.getD j 0 := by
      intro cc
      rw [← Fin.sum_univ_eq_sum_range
        (fun j => ((s.getD j 0 : ℚ)) ^ (i : ℕ) * cc.getD j 0) s.length]
      refine Finset.sum_congr rfl fun j _ => ?_
      rw [Matrix.transpose_apply, Matrix.vandermonde, Matrix.of_apply, hget j]
    show ((Matrix.vandermonde _).transpose.mulVec _) i
        = ((Matrix.vandermonde _).transpose.mulVec _) i
    rw [Matrix.mulVec, Matrix.mulVec]
    show ∑ j, _ * _ = ∑ j, _ * _
    rw [hside c, hside c2, h1.2 (i : ℕ) i.isLt, h2.2 (i : ℕ) i.isLt]
  have hfun : (fun j : Fin s.length => c.getD j 0)
      = fun j : Fin s.length => c2.getD j 0 := by
    have hinv := Matrix.invertibleOfIsUnitDet _ (isUnit_iff_ne_zero.mpr hdet)
    have h5 := congrArg
      (fun w => Matrix.mulVec
        (⅟((Matrix.vandermonde fun j : Fin s.length =>
          ((s.get j : ℤ) : ℚ)).transpose)) w) hmv
    simpa [Matrix.mulVec_mulVec, invOf_mul_self, Matrix.one_mulVec] using h5
  refine List.ext_getElem (h1.1.trans h2.1.symm) fun j hj1 hj2 => ?_
  have hjs : j < s.length := h1.1 ▸ hj1
  have := congrFun hfun ⟨j, hjs⟩
  rwa [List.getD_eq_getElem c 0 hj1, List.getD_eq_getElem c2 0 hj2] at this

/-- The central support list is antisymmetric under reversal. -/
lemma central_antisym (order accuracy : ℕ) (ha : 1 ≤ accuracy) (j : ℕ)
    (hj : j < (computeIds .central order accuracy).length) :
    (computeIds .central order accuracy).getD
        ((computeIds .central order accuracy).length - 1 - j) 0
      = -((computeIds .central order accuracy).getD j 0) := by
  have hlen := central_length order accuracy ha
  have h1 := central_getD order accuracy ha j hj
  have h2 := central_getD order accuracy ha
    ((computeIds .central order accuracy).length - 1 - j) (by omega)
  rw [h1, h2]
  omega

/-- For an even derivative order, the reversed coefficient list also solves
the central Vandermonde system. -/
lemma central_reverse_solution (order accuracy : ℕ) (ha : 1 ≤ accuracy)
    (heven : Even order) (c : List ℚ)
    (hc : isFDSolution (computeIds .central order accuracy) order c) :
    isFDSolution (computeIds .central order accuracy) order c.reverse := by
  obtain ⟨hlen, hmom⟩ := hc
  refine ⟨by simpa using hlen, ?_⟩
  intro i hi
  have hstep : ∀ j < (computeIds .central order accuracy).length,
      c.reverse.getD j 0
        = c.getD ((computeIds .central order accuracy).length - 1 - j) 0 := by
    intro j hj
    rw [getD_reverse c j (by omega), hlen]
  calc ∑ j ∈ Finset.range (computeIds .central order accuracy).length,
        ((computeIds .central order accuracy).getD j 0 : ℚ) ^ i
          * c.reverse.getD j 0
      = ∑ j ∈ Finset.range (computeIds .central order accuracy).length,
          ((computeIds .central order accuracy).getD j 0 : ℚ) ^ i
            * c.getD ((computeIds .central order accuracy).length - 1 - j) 0 := by
        refine Finset.sum_congr rfl fun j hj => ?_
        rw [hstep j (Finset.mem_range.mp hj)]
    _ = ∑ j ∈ Finset.range (computeIds .central order accuracy).length,
          (-((computeIds .central order accuracy).getD j 0 : ℚ)) ^ i
            * c.getD j 0 := by
        rw [← Finset.sum_range_reflect]
        refine Finset.sum_congr rfl fun j hj => ?_
        rw [Finset.mem_range] at hj
        rw [central_antisym order accuracy ha j hj]
        have he : (computeIds .central order accuracy).length - 1
            - ((computeIds .central order accuracy).length - 1 - j) = j := by
          omega
        rw [he]
        push_cast
        ring
    _ = (-1 : ℚ) ^ i
          * ∑ j ∈ Finset.range (computeIds .central order accuracy).length,
            ((computeIds .central order accuracy).getD j 0 : ℚ) ^ i
              * c.getD j 0 := by
        rw [Finset.mul_sum]
        refine Finset.sum_congr rfl fun j _ => ?_
        rw [neg_pow]
        ring
    _ = if i = order then (order.factorial : ℚ) else 0 := by
        rw [hmom i hi]
        by_cases hio : i = order
        · rw [if_pos hio, hio, heven.neg_one_pow, one_mul]
        · rw [if_neg hio, mul_zero]

/-- For an even derivative order, the unique central solution also satisfies
the vanishing of the next moment beyond the system (by symmetry). -/
lemma central_extra_moment (order accuracy : ℕ) (ha : 1 ≤ accuracy)
    (heven : Even order) (c : List ℚ)
    (hc : isFDSolution (computeIds .central order accuracy) order c) :
    ∑ j ∈ Finset.range (computeIds .central order accuracy).length,
        ((computeIds .central order accuracy).getD j 0 : ℚ)
          ^ (computeIds .central order accuracy).length * c.getD j 0
      = 0 := by
  have hrev : c.reverse = c :=
    fd_solution_unique _ (arangeZ_nodup _ _) order _ _
      (central_reverse_solution order accuracy ha heven c hc) hc
  have hlen := central_length order accuracy ha
  have hHnn := centralHalf_nonneg order accuracy ha
  have hLodd : Odd (computeIds .central order accuracy).length := by
    refine ⟨(centralHalf order accuracy).toNat, ?_⟩
    omega
  have hcsym : ∀ j < (computeIds .central order accuracy).length,
      c.getD ((computeIds .central order accuracy).length - 1 - j) 0
        = c.getD j 0 := by
    intro j hj
    conv_rhs => rw [← hrev]
    rw [getD_reverse c j (by rw [hc.1]; exact hj), hc.1]
  have hkey : ∑ j ∈ Finset.range (computeIds .central order accuracy).length,
      ((computeIds .central order accuracy).getD j 0 : ℚ)
        ^ (computeIds .central order accuracy).length * c.getD j 0
      = -(∑ j ∈ Finset.range (computeIds .central order accuracy).length,
          ((computeIds .central order accuracy).getD j 0 : ℚ)
            ^ (computeIds .central order accuracy).length * c.getD j 0) := by
    conv_lhs => rw [← Finset.sum_range_reflect]
    rw [← Finset.sum_neg_distrib]
    refine Finset.sum_congr rfl fun j hj => ?_
    rw [Finset.mem_range] at hj
    rw [central_antisym order accuracy ha j hj, hcsym j hj]
    push_cast
    rw [hLodd.neg_pow]
    ring
  linarith

/-- Taylor-expansion core: coefficients satisfying the moment conditions up to
`M` reproduce the `order`-th derivative of any polynomial of degree below `M`
exactly, after division by `smp ^ order` (sampling step `smp`). -/
lemma fd_taylor_exact (s : List ℤ) (order : ℕ) (c : List ℚ) (M : ℕ)
    (hmom : ∀ i < M,
      ∑ j ∈ Finset.range s.length, ((s.getD j 0 : ℚ)) ^ i * c.getD j 0
        = if i = order then (order.factorial : ℚ) else 0)
    (P : Polynomial ℚ) (hP : P.natDegree < M) (smp : ℚ) (hs : smp ≠ 0)
    (x : ℚ) :
    ∑ j ∈ Finset.range s.length,
        c.getD j 0 / smp ^ order * P.eval (x + (s.getD j 0 : ℚ) * smp)
      = (Polynomial.derivative^[order] P).eval x := by
  have hA : ∀ t : ℚ, P.eval (x + t)
      = ∑ i ∈ Finset.range M, (Polynomial.taylor x P).coeff i * t ^ i := by
    intro t
    have h0 : (Polynomial.taylor x P).eval t = P.eval (x + t) := by
      rw [Polynomial.taylor_eval, add_comm]
    rw [← h0]
    exact Polynomial.eval_eq_sum_range'
      (by rw [Polynomial.natDegree_taylor]; exact hP) t
  calc ∑ j ∈ Finset.range s.length,
        c.getD j 0 / smp ^ order * P.eval (x + (s.getD j 0 : ℚ) * smp)
      = ∑ j ∈ Finset.range s.length, ∑ i ∈ Finset.range M,
          (Polynomial.taylor x P).coeff i * (smp ^ i / smp ^ order)
            * (((s.getD j 0 : ℚ)) ^ i * c.getD j 0) := by
        refine Finset.sum_congr rfl fun j _ => ?_
        rw [hA ((s.getD j 0 : ℚ) * smp), Finset.mul_sum]
        refine Finset.sum_congr rfl fun i _ => ?_
        rw [mul_pow]
        ring
    _ = ∑ i ∈ Finset.range M,
          (Polynomial.taylor x P).coeff i * (smp ^ i / smp ^ order)
            * ∑ j ∈ Finset.range s.length,
                ((s.getD j 0 : ℚ)) ^ i * c.getD j 0 := by
        rw [Finset.sum_comm]
        refine Finset.sum_congr rfl fun i _ => ?_
        rw [Finset.mul_sum]
    _ = ∑ i ∈ Finset.range M,
          (if i = order
            then (Polynomial.taylor x P).coeff i * (smp ^ i / smp ^ order)
              * (order.factorial : ℚ) else 0) := by
        refine Finset.sum_congr rfl fun i hi => ?_
        rw [hmom i (Finset.mem_range.mp hi)]
        by_cases hio : i = order
        · rw [if_pos hio, if_pos hio]
        · rw [if_neg hio, mul_zero, if_neg hio]
    _ = (Polynomial.derivative^[order] P).eval x := by
        rw [Finset.sum_ite_eq' (Finset.range M) order
          (fun i => (Polynomial.taylor x P).coeff i * (smp ^ i / smp ^ order)
            * (order.factorial : ℚ))]
        by_cases hm : order < M
        · rw [if_pos (Finset.mem_range.mpr hm)]
          have hd : Polynomial.derivative^[order] P
              = order.factorial • Polynomial.hasseDeriv order P := by
            rw [← Polynomial.factorial_smul_hasseDeriv (R := ℚ) (k := order)]
            rfl
          rw [Polynomial.taylor_coeff, hd, nsmul_eq_mul, Polynomial.eval_mul,
            Polynomial.eval_natCast]
          field_simp
          ring
        · rw [if_neg (by rw [Finset.mem_range]; omega)]
          rw [Polynomial.iterate_derivative_eq_zero (by omega)]
          simp

lemma forward_length (order accuracy : ℕ) :
    (computeIds .forward order accuracy).length = order + accuracy := by
  unfold computeIds
  rw [arangeZ_length]
  omega

lemma backward_length (order accuracy : ℕ) :
    (computeIds .backward order accuracy).length = order + accuracy := by
  unfold computeIds
  rw [arangeZ_length]
  omega

/-- The solution of the 3-point central system at order 1 is
`[-1/2, 0, 1/2]`. -/
lemma central_one_one_ids : computeIds FDScheme.central 1 1 = [-1, 0, 1] := by
  decide

lemma central_one_one_sol :
    isFDSolution (computeIds FDScheme.central 1 1) 1 [-1/2, 0, 1/2] := by
  rw [central_one_one_ids]
  constructor
  · rfl
  · intro i hi
    simp only [List.length_cons, List.length_nil] at hi
    interval_cases i <;>
      norm_num [Finset.sum_range_succ, List.getD, Nat.factorial]

lemma central_one_one_unique (c : List ℚ)
    (hc : isFDSolution (computeIds FDScheme.central 1 1) 1 c) :
    c = [-1/2, 0, 1/2] :=
  fd_solution_unique _ (by rw [central_one_one_ids]; decide) 1 c _ hc
    central_one_one_sol

lemma forward_one_one_sol :
    isFDSolution (computeIds FDScheme.forward 1 1) 1 [-1, 1] := by
  have hids : computeIds FDScheme.forward 1 1 = [0, 1] := by decide
  rw [hids]
  refine ⟨rfl, ?_⟩
  intro i hi
  simp only [List.length_cons, List.length_nil] at hi
  interval_cases i <;>
    norm_num [Finset.sum_range_succ, List.getD, Nat.factorial]

/-- C3: the finite-difference coefficients are characterised as the solution
of the generalized Vandermonde system `V c = e_order * order!` of
`_compute_coefficients`, divided by `sampling ^ order`; consequently a stencil
of order `n` and accuracy `a` (supports from `_compute_ids`) applied to
samples of a polynomial of degree at most `n + a - 1` reproduces its analytic
`n`-th derivative exactly; in particular the order-1 accuracy-1 central
stencil applied to `x = [0, 1, 4, 9, 16, 25]` yields the interior output
`[2, 4, 6, 8]`. -/
theorem fd_polynomial_reproduction :
    (∀ (scheme : FDScheme) (order accuracy : ℕ), 1 ≤ accuracy →
      ∀ c, isFDSolution (computeIds scheme order accuracy) order c →
      ∀ P : Polynomial ℚ, P.natDegree < order + accuracy →
      ∀ smp : ℚ, smp ≠ 0 → ∀ x : ℚ,
        ∑ j ∈ Finset.range (computeIds scheme order accuracy).length,
            c.getD j 0 / smp ^ order
              * P.eval (x + ((computeIds scheme order accuracy).getD j 0 : ℚ)
                  * smp)
          = (Polynomial.derivative^[order] P).eval x) ∧
    (∀ c, isFDSolution (computeIds FDScheme.central 1 1) 1 c →
      ∀ i ∈ Finset.Icc (1 : ℤ) 4, corr1 c 1 6 xsq i = 2 * i) := by
  constructor
  · intro scheme order accuracy ha c hc P hP smp hs x
    cases scheme with
    | forward =>
        refine fd_taylor_exact _ order c (order + accuracy) ?_ P hP smp hs x
        intro i hi
        exact hc.2 i (by rw [forward_length]; omega)
    | backward =>
        refine fd_taylor_exact _ order c (order + accuracy) ?_ P hP smp hs x
        intro i hi
        exact hc.2 i (by rw [backward_length]; omega)
    | central =>
        by_cases hcase :
            order + accuracy ≤ (computeIds .central order accuracy).length
        · refine fd_taylor_exact _ order c (order + accuracy) ?_ P hP smp hs x
          intro i hi
          exact hc.2 i (by omega)
        · have hlenL := central_length order accuracy ha
          have hH : centralHalf order accuracy
              = (2 * (((order : ℤ) + 1) / 2) - 1 + (accuracy : ℤ)) / 2 := by
            unfold centralHalf nCoefsCentral
            rw [fdiv_two_eq, fdiv_two_eq]
          have hL1 : (computeIds .central order accuracy).length + 1
              = order + accuracy := by omega
          have heven : Even order := by
            rcases Nat.even_or_odd order with he | ho
            · exact he
            · exfalso
              obtain ⟨t, ht⟩ := ho
              omega
          have hLne : (computeIds .central order accuracy).length ≠ order := by
            obtain ⟨t, ht⟩ := heven
            omega
          refine fd_taylor_exact _ order c
            ((computeIds .central order accuracy).length + 1) ?_ P (by omega)
            smp hs x
          intro i hi
          by_cases hiL : i < (computeIds .central order accuracy).length
          · exact hc.2 i hiL
          · have hieq : i = (computeIds .central order accuracy).length := by
              omega
            rw [hieq, if_neg hLne]
            exact central_extra_moment order accuracy ha heven c hc
  · intro c hc i hi
    rw [central_one_one_unique c hc]
    rw [Finset.mem_Icc] at hi
    unfold corr1 xsq
    have hlen3 : ([-1/2, 0, 1/2] : List ℚ).length = 3 := rfl
    rw [hlen3, Finset.sum_range_succ, Finset.sum_range_succ,
      Finset.sum_range_one]
    rw [if_pos (by push_cast; omega), if_pos (by push_cast; omega),
      if_pos (by push_cast; omega)]
    simp only [List.getD_cons_zero, List.getD_cons_succ]
    push_cast
    ring

theorem fd_polynomial_reproduction_witness :
    isFDSolution (computeIds FDScheme.forward 1 1) 1 [-1, 1] ∧
    (∑ j ∈ Finset.range (computeIds FDScheme.forward 1 1).length,
        ([-1, 1] : List ℚ).getD j 0 / (1 : ℚ) ^ 1
          * (Polynomial.X : Polynomial ℚ).eval
              ((3 : ℚ) + ((computeIds FDScheme.forward 1 1).getD j 0 : ℚ) * 1)
      = (Polynomial.derivative^[1] (Polynomial.X : Polynomial ℚ)).eval 3) ∧
    corr1 [-1/2, 0, 1/2] 1 6 xsq 2 = 2 * ((2 : ℤ) : ℚ) :=
  ⟨forward_one_one_sol,
    fd_polynomial_reproduction.1 FDScheme.forward 1 1 (by norm_num) _
      forward_one_one_sol Polynomial.X
      (by rw [Polynomial.natDegree_X]; omega) 1 (by norm_num) 3,
    fd_polynomial_reproduction.2 _ central_one_one_sol 2 (by decide)⟩

/-- C5 (amended): the central support is the symmetric integer range
`arange(-(n_coefs // 2), n_coefs // 2 + 1)` whose size is
`n_coefs = 2⌊(n+1)/2⌋ - 1 + a` rounded up to the next odd integer (equal to
the claimed `2⌊(n+1)/2⌋ - 1 + a` exactly when that value is odd); requesting
order 1 with accuracy 1 silently yields the accuracy-2 stencil: support
`[-1, 0, 1]`, coefficients `[-1/2, 0, 1/2]`, center index 1. -/
theorem central_support_structure (order accuracy : ℕ) (ha : 1 ≤ accuracy) :
    computeIds .central order accuracy
      = arangeZ (-(centralHalf order accuracy))
          (centralHalf order accuracy + 1) ∧
    ((computeIds .central order accuracy).length : ℤ)
      = 2 * centralHalf order accuracy + 1 ∧
    (Odd (nCoefsCentral order accuracy) →
      ((computeIds .central order accuracy).length : ℤ)
        = nCoefsCentral order accuracy) ∧
    (∀ j < (computeIds .central order accuracy).length,
      (computeIds .central order accuracy).getD
          ((computeIds .central order accuracy).length - 1 - j) 0
        = -((computeIds .central order accuracy).getD j 0)) ∧
    computeIds .central 1 1 = [-1, 0, 1] ∧
    computeIds .central 1 1 = computeIds .central 1 2 ∧
    (computeIds .central 1 1).indexOf 0 = 1 ∧
    (∀ c, isFDSolution (computeIds .central 1 1) 1 c → c = [-1/2, 0, 1/2]) := by
  refine ⟨rfl, central_length order accuracy ha, ?_,
    fun j hj => central_antisym order accuracy ha j hj,
    central_one_one_ids, by decide, by decide, central_one_one_unique⟩
  intro hodd
  obtain ⟨t, ht⟩ := hodd
  have hlenL := central_length order accuracy ha
  have hH : centralHalf order accuracy
      = nCoefsCentral order accuracy / 2 := by
    unfold centralHalf
    rw [fdiv_two_eq]
  omega

theorem central_support_structure_witness :
    ((computeIds FDScheme.central 1 1).length : ℤ) = 2 * centralHalf 1 1 + 1 ∧
    computeIds FDScheme.central 1 1 = [-1, 0, 1] ∧
    ((computeIds FDScheme.central 1 2).length : ℤ) = nCoefsCentral 1 2 :=
  ⟨(central_support_structure 1 1 (by norm_num)).2.1,
    (central_support_structure 1 1 (by norm_num)).2.2.2.2.1,
    (central_support_structure 1 2 (by norm_num)).2.2.1 ⟨1, by decide⟩⟩

/-! ### Divergence scheme swap (diff.py `Divergence`) -/

/-- The scheme-swap dictionary of `Divergence`:
`change = {"central": "central", "forward": "backward", "backward": "forward"}`. -/
def schemeChange : FDScheme → FDScheme
  | .central => .central
  | .forward => .backward
  | .backward => .forward

/-- The `scheme` entry passed to the internal `Gradient` by `Divergence` when
`diff_method == "fd"`: default `"central"` when absent, `change[scheme]` for a
string argument, elementwise `change` for a sequence argument. -/
def divergenceScheme (arg : Option (FDScheme ⊕ List FDScheme)) :
    FDScheme ⊕ List FDScheme :=
  match arg with
  | none => Sum.inl (schemeChange .central)
  | some (Sum.inl s) => Sum.inl (schemeChange s)
  | some (Sum.inr l) => Sum.inr (l.map schemeChange)

/-- C6: for `diff_method="fd"` the internal Gradient of Divergence uses the
scheme swapped per axis relative to the requested one: forward ↦ backward,
backward ↦ forward, central ↦ central, and the default (absent) scheme is
central (unchanged); sequence arguments are swapped elementwise. -/
theorem divergence_scheme_swap :
    divergenceScheme (some (Sum.inl FDScheme.forward))
      = Sum.inl FDScheme.backward ∧
    divergenceScheme (some (Sum.inl FDScheme.backward))
      = Sum.inl FDScheme.forward ∧
    divergenceScheme (some (Sum.inl FDScheme.central))
      = Sum.inl FDScheme.central ∧
    divergenceScheme none = Sum.inl FDScheme.central ∧
    (∀ l : List FDScheme,
      divergenceScheme (some (Sum.inr l)) = Sum.inr (l.map schemeChange)) ∧
    (∀ (l : List FDScheme) (d : ℕ),
      (l.map schemeChange).getD d FDScheme.central
        = schemeChange (l.getD d FDScheme.central)) := by
  refine ⟨rfl, rfl, rfl, rfl, fun l => rfl, ?_⟩
  intro l d
  by_cases hd : d < l.length
  · rw [List.getD_eq_getElem _ _ (by simpa using hd),
      List.getD_eq_getElem _ _ hd, List.getElem_map]
  · rw [List.getD_eq_default _ _ (by simpa using hd),
      List.getD_eq_default _ _ (by omega)]
    rfl

/-! ### Second-order directional derivative (diff.py `DirectionalDerivative`) -/

/-- Coefficients combined with the stacked upper-triangular Hessian
components, from `DirectionalDerivative` with `order=2`: the outer product of
the two normalized directions with the off-diagonal (upper-triangular)
entries doubled (`norm_dirs[off_diag_inds] *= 2`, `norm_dirs[inds]`). -/
def dirOuterCoefs (Dm : ℕ) (u v : Fin Dm → ℚ) : Fin Dm → Fin Dm → ℚ :=
  fun i j => if i = j then u i * v j else 2 * (u i * v j)

/-- The composite `Sum ∘ DiagonalOp ∘ Hessian` of `DirectionalDerivative`
evaluated on the values of the stacked upper-triangular Hessian components
`H i j` (`i ≤ j`) at one output position. -/
def secondDirDeriv (Dm : ℕ) (u v : Fin Dm → ℚ)
    (H : Fin Dm → Fin Dm → ℚ) : ℚ :=
  ∑ p ∈ Finset.univ.filter (fun p : Fin Dm × Fin Dm => p.1 ≤ p.2),
    dirOuterCoefs Dm u v p.1 p.2 * H p.1 p.2

/-- The symmetric bilinear form `v1ᵀ H v2`. -/
def bilinearForm (Dm : ℕ) (u v : Fin Dm → ℚ)
    (H : Fin Dm → Fin Dm → ℚ) : ℚ :=
  ∑ i : Fin Dm, ∑ j : Fin Dm, u i * H i j * v j

/-- C7 (code evaluated at the failing input): with the already-unit-norm
directions v1 = (1,0), v2 = (0,1) (normalization is the identity on them) and
the symmetric mixed-partial values H = [[0,1],[1,0]], the doubled
upper-triangular outer-product combination of the code yields `2·H₀₁ = 2`,
whereas the documented `v1ᵀ H v2` equals `1`. -/
theorem directional_second_order_mismatch :
    (∑ i : Fin 2, (![1, 0] : Fin 2 → ℚ) i ^ 2) = 1 ∧
    (∑ i : Fin 2, (![0, 1] : Fin 2 → ℚ) i ^ 2) = 1 ∧
    secondDirDeriv 2 ![1, 0] ![0, 1] ![![0, 1], ![1, 0]] = 2 ∧
    bilinearForm 2 ![1, 0] ![0, 1] ![![0, 1], ![1, 0]] = 1 := by
  refine ⟨?_, ?_, ?_, ?_⟩
  · rw [Fin.sum_univ_two]
    norm_num
  · rw [Fin.sum_univ_two]
    norm_num
  · unfold secondDirDeriv dirOuterCoefs
    rw [Finset.sum_filter, Fintype.sum_prod_type, Fin.sum_univ_two,
      Fin.sum_univ_two, Fin.sum_univ_two]
    norm_num
  · unfold bilinearForm
    rw [Fin.sum_univ_two, Fin.sum_univ_two, Fin.sum_univ_two]
    norm_num

/-- For a single (repeated) direction the doubled upper-triangular
combination does agree with `vᵀ H v` on symmetric components — the case the
test-suite exercises. -/
theorem secondDirDeriv_eq_bilinear_same (Dm : ℕ) (u : Fin Dm → ℚ)
    (H : Fin Dm → Fin Dm → ℚ) (hH : ∀ i j, H i j = H j i) :
    secondDirDeriv Dm u u H = bilinearForm Dm u u H := by
  classical
  unfold secondDirDeriv bilinearForm dirOuterCoefs
  rw [Finset.sum_filter, Fintype.sum_prod_type]
  have hterm : ∀ i j : Fin Dm,
      (if i ≤ j then (if i = j then u i * u j else 2 * (u i * u j)) * H i j
        else 0)
      = (if i < j then u i * u j * H i j else 0)
        + (if i = j then u i * u j * H i j else 0)
        + (if i < j then u i * u j * H i j else 0) := by
    intro i j
    rcases lt_trichotomy i j with hlt | heq | hgt
    · rw [if_pos hlt.le, if_neg hlt.ne, if_pos hlt, if_neg hlt.ne]
      ring
    · rw [if_pos heq.le, if_pos heq, if_neg (heq ▸ lt_irrefl i), if_pos heq]
      ring
    · rw [if_neg (not_le.mpr hgt), if_neg (not_lt.mpr hgt.le),
        if_neg (fun he => hgt.ne he.symm)]
      ring
  have hbil : ∀ i j : Fin Dm, u i * H i j * u j
      = (if i < j then u i * u j * H i j else 0)
        + (if i = j then u i * u j * H i j else 0)
        + (if j < i then u i * u j * H i j else 0) := by
    intro i j
    rcases lt_trichotomy i j with hlt | heq | hgt
    · rw [if_pos hlt, if_neg hlt.ne, if_neg (not_lt.mpr hlt.le)]
      ring
    · rw [if_neg (heq ▸ lt_irrefl i), if_pos heq,
        if_neg (heq ▸ lt_irrefl i)]
      ring
    · rw [if_neg (not_lt.mpr hgt.le), if_neg (fun he => hgt.ne he.symm),
        if_pos hgt]
      ring
  have hswap : ∑ i : Fin Dm, ∑ j : Fin Dm,
      (if j < i then u i * u j * H i j else 0)
      = ∑ i : Fin Dm, ∑ j : Fin Dm,
        (if i < j then u i * u j * H i j else 0) := by
    rw [Finset.sum_comm]
    refine Finset.sum_congr rfl fun i _ => ?_
    refine Finset.sum_congr rfl fun j _ => ?_
    by_cases hij : i < j
    · rw [if_pos hij, if_pos hij, hH j i]
      ring
    · rw [if_neg hij, if_neg hij]
  calc ∑ i : Fin Dm, ∑ j : Fin Dm,
        (if i ≤ j then (if i = j then u i * u j else 2 * (u i * u j)) * H i j
          else 0)
      = ∑ i : Fin Dm, ∑ j : Fin Dm,
          ((if i < j then u i * u j * H i j else 0)
            + (if i = j then u i * u j * H i j else 0)
            + (if i < j then u i * u j * H i j else 0)) := by
        refine Finset.sum_congr rfl fun i _ => ?_
        exact Finset.sum_congr rfl fun j _ => hterm i j
    _ = ∑ i : Fin Dm, ∑ j : Fin Dm,
          ((if i < j then u i * u j * H i j else 0)
            + (if i = j then u i * u j * H i j else 0)
            + (if j < i then u i * u j * H i j else 0)) := by
        simp only [Finset.sum_add_distrib]
        rw [hswap]
    _ = ∑ i : Fin Dm, ∑ j : Fin Dm, u i * H i j * u j := by
        refine Finset.sum_congr rfl fun i _ => ?_
        refine Finset.sum_congr rfl fun j _ => (hbil i j).symm

/-! ### Construction-time validation (diff.py `_sanitize_init_kwargs` and
`_compute_ids`) -/

/-- The scheme dispatch of `_FiniteDifference._compute_ids`, which raises a
`ValueError` for any scheme string other than central/forward/backward. -/
def computeIdsChecked (scheme : String) (order accuracy : ℕ) :
    Except String (List ℤ) :=
  if scheme = "central" then Except.ok (computeIds .central order accuracy)
  else if scheme = "forward" then
    Except.ok (computeIds .forward order accuracy)
  else if scheme = "backward" then
    Except.ok (computeIds .backward order accuracy)
  else Except.error ("Incorrect value for variable type")

/-- Construction-time validation of the finite-difference path: the value
asserts of `_sanitize_init_kwargs` (order ≥ 0, sampling > 0, accuracy ≥ 0) in
source order, then the per-axis support computation of `_compute_ids`. -/
def fdConstruct (order : List ℤ) (sampling : List ℚ) (scheme : List String)
    (accuracy : List ℤ) : Except String (List (List ℤ)) :=
  if ¬ (∀ o ∈ order, (0 : ℤ) ≤ o) then
    Except.error ("Order must be positive")
  else if ¬ (∀ v ∈ sampling, (0 : ℚ) < v) then
    Except.error ("Sampling must be strictly positive")
  else if ¬ (∀ v ∈ accuracy, (0 : ℤ) ≤ v) then
    Except.error ("Accuracy must be positive")
  else (order.zip (scheme.zip accuracy)).mapM
    fun t => computeIdsChecked t.2.1 t.1.toNat t.2.2.toNat

/-- Construction-time validation of the Gaussian-derivative path: the sigma
check of `_sanitize_init_kwargs` is `p >= 0` (its message says "strictly
positive", but `0` passes it). -/
def gdConstruct (order : List ℤ) (sampling : List ℚ) (sigma : List ℚ)
    (truncate : List ℚ) : Except String Unit :=
  if ¬ (∀ o ∈ order, (0 : ℤ) ≤ o) then
    Except.error ("Order must be positive")
  else if ¬ (∀ v ∈ sampling, (0 : ℚ) < v) then
    Except.error ("Sampling must be strictly positive")
  else if ¬ (∀ v ∈ sigma, (0 : ℚ) ≤ v) then
    Except.error ("Sigma must be strictly positive")
  else if ¬ (∀ v ∈ truncate, (0 : ℚ) < v) then
    Except.error ("Truncate must be strictly positive")
  else Except.ok ()

lemma mapM_not_ok {α β : Type} (f : α → Except String β) :
    ∀ (l : List α), (∃ x ∈ l, (f x).isOk = false) →
      (l.mapM f).isOk = false := by
  intro l
  induction l with
  | nil =>
      rintro ⟨x, hx, _⟩
      cases hx
  | cons a t ih =>
      rintro ⟨x, hx, hfx⟩
      rw [List.mapM_cons]
      rcases List.mem_cons.mp hx with rfl | hxt
      · cases hfa : f x with
        | error e =>
            simp [hfa, Except.isOk, Except.toBool, Bind.bind, Except.bind]
        | ok b =>
            rw [hfa] at hfx
            simp [Except.isOk, Except.toBool] at hfx
      · cases hfa : f a with
        | error e =>
            simp [hfa, Except.isOk, Except.toBool, Bind.bind, Except.bind]
        | ok b =>
            have hrec := ih ⟨x, hxt, hfx⟩
            cases hmt : t.mapM f with
            | error e2 =>
                simp [hfa, hmt, Except.isOk, Except.toBool, Bind.bind,
                  Except.bind, Except.pure]
            | ok r =>
                rw [hmt] at hrec
                simp [Except.isOk, Except.toBool] at hrec

/-- C8 counterexample: a zero sigma passes the validation of
`_sanitize_init_kwargs` (whose check is `p >= 0`) and construction proceeds —
no `ValueError`-kind error is raised for `sigma = 0`. -/
theorem zero_sigma_accepted :
    gdConstruct [1] [1] [0] [3] = Except.ok () := by
  rfl

/-- C8 (amended): an invalid scheme string, a negative order, a negative
accuracy and a negative sigma each cause a fatal construction-time validation
error, for every combination of the remaining parameters; a sigma equal to 0,
however, passes validation (the check is `sigma ≥ 0`) and construction
succeeds whenever the remaining parameters are valid. -/
theorem pd_construction_validation :
    (∀ (order : List ℤ) (sampling : List ℚ) (scheme : List String)
        (accuracy : List ℤ) (i : ℕ),
      i < order.length → i < scheme.length → i < accuracy.length →
      scheme.getD i "" ∉ (["central", "forward", "backward"] : List String) →
      (fdConstruct order sampling scheme accuracy).isOk = false) ∧
    (∀ (order : List ℤ) (sampling : List ℚ) (scheme : List String)
        (accuracy : List ℤ),
      (∃ o ∈ order, o < 0) →
      (fdConstruct order sampling scheme accuracy).isOk = false) ∧
    (∀ (order : List ℤ) (sampling : List ℚ) (scheme : List String)
        (accuracy : List ℤ),
      (∃ v ∈ accuracy, v < 0) →
      (fdConstruct order sampling scheme accuracy).isOk = false) ∧
    (∀ (order : List ℤ) (sampling sigma truncate : List ℚ),
      (∃ v ∈ sigma, v < 0) →
      (gdConstruct order sampling sigma truncate).isOk = false) ∧
    (∀ (order : List ℤ) (sampling sigma truncate : List ℚ),
      (∀ o ∈ order, (0 : ℤ) ≤ o) → (∀ v ∈ sampling, (0 : ℚ) < v) →
      (∀ v ∈ sigma, (0 : ℚ) ≤ v) → (∀ v ∈ truncate, (0 : ℚ) < v) →
      gdConstruct order sampling sigma truncate = Except.ok ()) := by
  refine ⟨?_, ?_, ?_, ?_, ?_⟩
  · intro order sampling scheme accuracy i hio his hia hbad
    have hb1 : scheme.getD i "" ≠ "central" := fun he => hbad (by
      rw [he]; exact List.mem_cons_self _ _)
    have hb2 : scheme.getD i "" ≠ "forward" := fun he => hbad (by
      rw [he]; exact List.mem_cons_of_mem _ (List.mem_cons_self _ _))
    have hb3 : scheme.getD i "" ≠ "backward" := fun he => hbad (by
      rw [he]
      exact List.mem_cons_of_mem _ (List.mem_cons_of_mem _
        (List.mem_cons_self _ _)))
    unfold fdConstruct
    split
    · rfl
    · split
      · rfl
      · split
        · rfl
        · refine mapM_not_ok _ _
            ⟨(order.zip (scheme.zip accuracy)).getD i (0, "", 0), ?_, ?_⟩
          · rw [List.getD_eq_getElem _ _ (by
              rw [List.length_zip, List.length_zip]; omega)]
            exact List.getElem_mem _
          · have hz : (order.zip (scheme.zip accuracy)).getD i (0, "", 0)
                = (order.getD i 0, scheme.getD i "", accuracy.getD i 0) := by
              rw [List.getD_eq_getElem _ _ (by
                rw [List.length_zip, List.length_zip]; omega)]
              rw [List.getElem_zip, List.getElem_zip]
              rw [List.getD_eq_getElem _ _ hio, List.getD_eq_getElem _ _ his,
                List.getD_eq_getElem _ _ hia]
            rw [hz]
            show (computeIdsChecked (scheme.getD i "") _ _).isOk = false
            unfold computeIdsChecked
            rw [if_neg hb1, if_neg hb2, if_neg hb3]
            rfl
  · rintro order sampling scheme accuracy ⟨o, ho, hneg⟩
    unfold fdConstruct
    rw [if_pos (fun hall => absurd (hall o ho) (not_le.mpr hneg))]
    rfl
  · rintro order sampling scheme accuracy ⟨v, hv, hneg⟩
    unfold fdConstruct
    split
    · rfl
    · split
      · rfl
      · rw [if_pos (fun hall => absurd (hall v hv) (not_le.mpr hneg))]
        rfl
  · rintro order sampling sigma truncate ⟨v, hv, hneg⟩
    unfold gdConstruct
    split
    · rfl
    · split
      · rfl
      · rw [if_pos (fun hall => absurd (hall v hv) (not_le.mpr hneg))]
        rfl
  · intro order sampling sigma truncate h1 h2 h3 h4
    unfold gdConstruct
    rw [if_neg (not_not_intro h1), if_neg (not_not_intro h2),
      if_neg (not_not_intro h3), if_neg (not_not_intro h4)]

theorem pd_construction_validation_witness :
    (fdConstruct [1, 1] [1] ["central", "bogus"] [1, 1]).isOk = false ∧
    (fdConstruct [-1] [] [] []).isOk = false ∧
    (fdConstruct [] [] [] [-1]).isOk = false ∧
    (gdConstruct [] [] [-1] []).isOk = false ∧
    gdConstruct [1] [1] [0] [3] = Except.ok () :=
  ⟨pd_construction_validation.1 [1, 1] [1] ["central", "bogus"] [1, 1] 1
      (by norm_num) (by norm_num) (by norm_num) (by decide),
    pd_construction_validation.2.1 [-1] [] [] []
      ⟨-1, List.mem_singleton.mpr rfl, by norm_num⟩,
    pd_construction_validation.2.2.1 [] [] [] [-1]
      ⟨-1, List.mem_singleton.mpr rfl, by norm_num⟩,
    pd_construction_validation.2.2.2.1 [] [] [-1] []
      ⟨-1, List.mem_singleton.mpr rfl, by norm_num⟩,
    pd_construction_validation.2.2.2.2 [1] [1] [0] [3]
      (by intro o ho; rw [List.mem_singleton.mp ho] <;> norm_num)
      (by intro v hv; rw [List.mem_singleton.mp hv] <;> norm_num)
      (by intro v hv; rw [List.mem_singleton.mp hv] <;> norm_num)
      (by intro v hv; rw [List.mem_singleton.mp hv] <;> norm_num)⟩

/-!
## Separable filters: the Gaussian builder (C9) and edge-filter builders (C10)
(operator/linop/filter.py)
-/

/-- One-dimensional correlation along axis `d` with a list kernel `k` centered
at position `c`, zero fill outside the box: the action of one entry of the
separable kernel list accepted by `Stencil`. -/
def axisApply {D : ℕ} (n : Fin D → ℕ) (d : Fin D) (k : List ℚ) (c : ℕ)
    (x : Index D → ℚ) : Index D → ℚ :=
  fun i => ∑ q ∈ Finset.range k.length,
    extendZ n x (Function.update i d (i d - c + q)) * k.getD q 0

/-- Sequential application of a separable kernel/center list along every axis,
modelling a `Stencil` operator built from a list of one-dimensional kernels. -/
def sepApply {D : ℕ} (n : Fin D → ℕ) (ks : Fin D → List ℚ × ℕ)
    (x : Index D → ℚ) : Index D → ℚ :=
  (List.finRange D).foldl
    (fun acc d => axisApply n d (ks d).1 (ks d).2 acc) x

/-- Python int() truncation (round toward zero) of a rational number. -/
def pyInt (q : ℚ) : ℤ := q.num.tdiv q.den

lemma pyInt_nonneg_floor (q : ℚ) (h : 0 ≤ q) : pyInt q = ⌊q⌋ := by
  unfold pyInt
  rw [Rat.floor_def, Int.tdiv_eq_ediv (Rat.num_nonneg.mpr h) (by positivity)]

/-- Kernels and centers built by the `Gaussian` filter factory
(operator/linop/filter.py): every axis starts with kernel `[1]` and center 0,
and each axis whose sigma is nonzero (`if sigma_:`) is given the flipped,
`sampling**order`-scaled sampled kernel of radius
`int(truncate * sigma_pix + 0.5)` with that radius as center.  The scipy
sampler `_gaussian_kernel1d` is external to the repository and is abstracted
as the parameter `gk`. -/
def gaussianKernels {D : ℕ} (gk : ℚ → ℕ → ℕ → List ℚ)
    (σ t smp : Fin D → ℚ) (ord : Fin D → ℕ) : Fin D → List ℚ × ℕ :=
  fun i =>
    if σ i ≠ 0 then
      (((gk (σ i / smp i) (ord i)
            (pyInt (t i * (σ i / smp i) + 1/2)).toNat).reverse).map
          (fun v => v / smp i ^ ord i),
        (pyInt (t i * (σ i / smp i) + 1/2)).toNat)
    else ([1], 0)

lemma gaussianKernels_zero {D : ℕ} (gk : ℚ → ℕ → ℕ → List ℚ)
    (σ t smp : Fin D → ℚ) (ord : Fin D → ℕ) (i : Fin D) (h : σ i = 0) :
    gaussianKernels gk σ t smp ord i = ([1], 0) := by
  unfold gaussianKernels
  rw [if_neg (not_not_intro h)]

/-- The kernel `[1]` with center 0 acts as the identity on in-box positions. -/
lemma axisApply_one {D : ℕ} (n : Fin D → ℕ) (d : Fin D) (x : Index D → ℚ)
    (p : Index D) (hp : p ∈ box n) :
    axisApply n d [1] 0 x p = x p := by
  unfold axisApply
  rw [show ([1] : List ℚ).length = 1 from rfl, Finset.sum_range_one]
  simp only [Nat.cast_zero, sub_zero, add_zero, Function.update_eq_self,
    List.getD_cons_zero, mul_one]
  exact extendZ_eq_self hp

lemma foldl_identity {D : ℕ} (n : Fin D → ℕ) (ks : Fin D → List ℚ × ℕ)
    (hks : ∀ d, ks d = ([1], 0)) (x : Index D → ℚ) :
    ∀ (l : List (Fin D)) (acc : Index D → ℚ),
      (∀ p ∈ box n, acc p = x p) →
      ∀ p ∈ box n,
        (l.foldl (fun a d => axisApply n d (ks d).1 (ks d).2 a) acc) p = x p := by
  intro l
  induction l with
  | nil => intro acc hacc p hp; exact hacc p hp
  | cons d t ih =>
    intro acc hacc p hp
    rw [List.foldl_cons]
    refine ih _ ?_ p hp
    intro p2 hp2
    show axisApply n d (ks d).1 (ks d).2 acc p2 = x p2
    rw [hks d]
    exact (axisApply_one n d acc p2 hp2).trans (hacc p2 hp2)

/-- C9: In the `Gaussian` filter builder, every axis whose sigma entry is zero
keeps the identity kernel `[1]` with center 0, so no filtering is applied
along that axis, and the whole operator acts as the identity on the index box
when every sigma entry is zero; every axis with nonzero sigma receives the
flipped, `sampling**order`-scaled sampled kernel whose radius (and center)
`int(truncate * sigma/sampling + 0.5)` equals
`floor(truncate * sigma / sampling + 1/2)` for nonnegative truncate and
sigma and positive sampling. -/
theorem gaussian_identity_axes {D : ℕ} (gk : ℚ → ℕ → ℕ → List ℚ)
    (σ t smp : Fin D → ℚ) (ord : Fin D → ℕ) :
    (∀ i, σ i = 0 → gaussianKernels gk σ t smp ord i = ([1], 0)) ∧
    (∀ i, σ i ≠ 0 →
      gaussianKernels gk σ t smp ord i
        = (((gk (σ i / smp i) (ord i)
              (pyInt (t i * (σ i / smp i) + 1/2)).toNat).reverse).map
                (fun v => v / smp i ^ ord i),
            (pyInt (t i * (σ i / smp i) + 1/2)).toNat)) ∧
    (∀ i, 0 ≤ t i → 0 ≤ σ i → 0 < smp i →
      pyInt (t i * (σ i / smp i) + 1/2) = ⌊t i * σ i / smp i + 1/2⌋) ∧
    (∀ (n : Fin D → ℕ) (d : Fin D) (x : Index D → ℚ) (p : Index D),
      p ∈ box n → axisApply n d [1] 0 x p = x p) ∧
    ((∀ i, σ i = 0) → ∀ (n : Fin D → ℕ) (x : Index D → ℚ) (p : Index D),
      p ∈ box n → sepApply n (gaussianKernels gk σ t smp ord) x p = x p) := by
  refine ⟨gaussianKernels_zero gk σ t smp ord, ?_, ?_, ?_, ?_⟩
  · intro i h
    unfold gaussianKernels
    rw [if_pos h]
  · intro i ht hσ hsmp
    have h1 : 0 ≤ σ i / smp i := div_nonneg hσ hsmp.le
    have hq : (0:ℚ) ≤ t i * (σ i / smp i) + 1/2 := by
      have := mul_nonneg ht h1
      linarith
    rw [pyInt_nonneg_floor _ hq, mul_div_assoc]
  · intro n d x p hp
    exact axisApply_one n d x p hp
  · intro hσ n x p hp
    unfold sepApply
    exact foldl_identity n _ (fun d => gaussianKernels_zero gk σ t smp ord d (hσ d))
      x (List.finRange D) x (fun _ _ => rfl) p hp

abbrev c9gk : ℚ → ℕ → ℕ → List ℚ := fun s _ r => List.replicate (2 * r + 1) s

abbrev c9t : Fin 1 → ℚ := fun _ => 3

abbrev c9smp : Fin 1 → ℚ := fun _ => 1

abbrev c9ord : Fin 1 → ℕ := fun _ => 0

abbrev c9σa : Fin 1 → ℚ := fun _ => 2

abbrev c9σz : Fin 1 → ℚ := fun _ => 0

/-- Witness for C9: concrete evaluation with truncate 3, sigma 2, sampling 1
(radius 6) and with all-zero sigma (identity kernel and identity action on a
concrete signal over the box of shape 3). -/
theorem gaussian_identity_axes_witness :
    pyInt (c9t 0 * (c9σa 0 / c9smp 0) + 1/2) = 6 ∧
    gaussianKernels c9gk c9σz c9t c9smp c9ord 0 = ([1], 0) ∧
    sepApply (fun _ => 3) (gaussianKernels c9gk c9σz c9t c9smp c9ord)
      (fun i => (i 0 : ℚ) + 7) (fun _ => 2) = 9 := by
  refine ⟨?_, ?_, ?_⟩
  · rw [(gaussian_identity_axes c9gk c9σa c9t c9smp c9ord).2.2.1 0
      (by norm_num) (by norm_num) (by norm_num)]
    norm_num [Int.floor_eq_iff]
  · exact (gaussian_identity_axes c9gk c9σz c9t c9smp c9ord).1 0 rfl
  · rw [(gaussian_identity_axes c9gk c9σz c9t c9smp c9ord).2.2.2.2
      (fun _ => rfl) (fun _ => 3) (fun i => (i 0 : ℚ) + 7) (fun _ => 2)
      (mem_box.mpr fun d => by norm_num)]
    norm_num

/-- The list of edge axes targeted by an edge filter (`_get_axes`): all axes
when `axis=None`, the given single axis, or the given list of axes. -/
def getAxes {D : ℕ} (axis : Option (Fin D ⊕ List (Fin D))) : List (Fin D) :=
  match axis with
  | none => List.finRange D
  | some (Sum.inl a) => [a]
  | some (Sum.inr l) => l

/-- Per-axis kernel and center built by `_EdgeFilter` for edge axis `e`: the
reversed edge kernel `[-1, 0, 1]` divided by the edge-axis sampling step on
the edge axis, the filter-specific smoothing kernel divided by the axis
sampling step on every other axis, and center 1 on every axis
(`center = np.ones`). -/
def edgeKernels {D : ℕ} (smooth : List ℚ) (sampling : Fin D → ℚ)
    (e : Fin D) : Fin D → List ℚ × ℕ :=
  fun d =>
    if d = e then (([-1, 0, 1] : List ℚ).map (fun v => v / sampling e), 1)
    else (smooth.map (fun v => v / sampling d), 1)

/-- Edge magnitude computed by `_EdgeFilter` when more than one axis is
selected: `(1 / sqrt ndim) * sqrt (Σ_e square (Stencil_e x))`. -/
noncomputable def edgeMagnitude {D : ℕ} (n : Fin D → ℕ) (smooth : List ℚ)
    (sampling : Fin D → ℚ) (axes : List (Fin D)) (x : Index D → ℚ)
    (i : Index D) : ℝ :=
  (1 / Real.sqrt D) * Real.sqrt
    (((axes.map fun e =>
        (sepApply n (edgeKernels smooth sampling e) x i) ^ 2).sum : ℚ))

lemma extendZ_add {D : ℕ} (n : Fin D → ℕ) (x y : Index D → ℚ) (i : Index D) :
    extendZ n (fun j => x j + y j) i = extendZ n x i + extendZ n y i := by
  unfold extendZ
  split <;> simp

lemma extendZ_smul {D : ℕ} (n : Fin D → ℕ) (r : ℚ) (x : Index D → ℚ)
    (i : Index D) :
    extendZ n (fun j => r * x j) i = r * extendZ n x i := by
  unfold extendZ
  split <;> simp

lemma axisApply_add {D : ℕ} (n : Fin D → ℕ) (d : Fin D) (k : List ℚ) (c : ℕ)
    (x y : Index D → ℚ) (i : Index D) :
    axisApply n d k c (fun j => x j + y j) i
      = axisApply n d k c x i + axisApply n d k c y i := by
  unfold axisApply
  rw [← Finset.sum_add_distrib]
  refine Finset.sum_congr rfl fun q _ => ?_
  rw [extendZ_add, add_mul]

lemma axisApply_smul {D : ℕ} (n : Fin D → ℕ) (d : Fin D) (k : List ℚ) (c : ℕ)
    (r : ℚ) (x : Index D → ℚ) (i : Index D) :
    axisApply n d k c (fun j => r * x j) i = r * axisApply n d k c x i := by
  unfold axisApply
  rw [Finset.mul_sum]
  refine Finset.sum_congr rfl fun q _ => ?_
  rw [extendZ_smul, mul_assoc]

lemma foldl_add {D : ℕ} (n : Fin D → ℕ) (ks : Fin D → List ℚ × ℕ)
    (l : List (Fin D)) :
    ∀ x y : Index D → ℚ,
      l.foldl (fun a d => axisApply n d (ks d).1 (ks d).2 a)
          (fun j => x j + y j)
        = fun i =>
            l.foldl (fun a d => axisApply n d (ks d).1 (ks d).2 a) x i
              + l.foldl (fun a d => axisApply n d (ks d).1 (ks d).2 a) y i := by
  induction l with
  | nil => intro x y; rfl
  | cons d t ih =>
    intro x y
    rw [List.foldl_cons, List.foldl_cons, List.foldl_cons]
    have h1 : axisApply n d (ks d).1 (ks d).2 (fun j => x j + y j)
        = fun i => axisApply n d (ks d).1 (ks d).2 x i
            + axisApply n d (ks d).1 (ks d).2 y i := by
      funext i
      exact axisApply_add n d (ks d).1 (ks d).2 x y i
    rw [h1]
    exact ih _ _

lemma foldl_smul {D : ℕ} (n : Fin D → ℕ) (ks : Fin D → List ℚ × ℕ)
    (l : List (Fin D)) :
    ∀ (r : ℚ) (x : Index D → ℚ),
      l.foldl (fun a d => axisApply n d (ks d).1 (ks d).2 a)
          (fun j => r * x j)
        = fun i =>
            r * l.foldl (fun a d => axisApply n d (ks d).1 (ks d).2 a) x i := by
  induction l with
  | nil => intro r x; rfl
  | cons d t ih =>
    intro r x
    rw [List.foldl_cons, List.foldl_cons]
    have h1 : axisApply n d (ks d).1 (ks d).2 (fun j => r * x j)
        = fun i => r * axisApply n d (ks d).1 (ks d).2 x i := by
      funext i
      exact axisApply_smul n d (ks d).1 (ks d).2 r x i
    rw [h1]
    exact ih _ _

lemma sepApply_add {D : ℕ} (n : Fin D → ℕ) (ks : Fin D → List ℚ × ℕ)
    (x y : Index D → ℚ) (i : Index D) :
    sepApply n ks (fun j => x j + y j) i = sepApply n ks x i + sepApply n ks y i := by
  unfold sepApply
  rw [foldl_add n ks (List.finRange D) x y]

lemma sepApply_smul {D : ℕ} (n : Fin D → ℕ) (ks : Fin D → List ℚ × ℕ)
    (r : ℚ) (x : Index D → ℚ) (i : Index D) :
    sepApply n ks (fun j => r * x j) i = r * sepApply n ks x i := by
  unfold sepApply
  rw [foldl_smul n ks (List.finRange D) r x]

/-- Counterexample to C10 as stated: `_EdgeFilter` divides the smoothing
kernel of every non-edge axis by that axis's sampling step, so for sampling
`(1, 2)` on a 2-D Sobel filter with edge axis 0, the axis-1 kernel is not the
bare smoothing kernel `[1/4, 1/2, 1/4]` (it is `[1/8, 1/4, 1/8]`). -/
theorem edge_smooth_kernel_scaled :
    edgeKernels (D := 2) [1/4, 1/2, 1/4] ![1, 2] 0 1
      ≠ ([1/4, 1/2, 1/4], 1) := by
  unfold edgeKernels
  rw [if_neg (by decide)]
  intro h
  have h2 := congrArg (fun p => p.1.getD 0 0) h
  simp only [List.map_cons, List.map_nil, List.getD_cons_zero] at h2
  norm_num [Matrix.cons_val_one, Matrix.head_cons] at h2

/-- C10 (amended): for each selected edge axis `e`, `_EdgeFilter` builds the
separable kernel with reversed edge kernel `[-1, 0, 1]` divided by the edge
axis's sampling step on axis `e` and the filter-specific smoothing kernel
divided by each axis's own sampling step on every other axis (all centers 1);
omitting `axis` selects all axes and a single given axis selects only itself;
with exactly one selected axis the operator is the linear `Stencil`
correlation (additive and homogeneous); with more than one selected axis the
edge-magnitude map `(1/sqrt D) * sqrt(sum_e square(Stencil_e x))` is not
additive (evaluated at any input with nonzero magnitude). -/
theorem edge_filter_structure {D : ℕ} (smooth : List ℚ)
    (sampling : Fin D → ℚ) :
    (∀ e : Fin D, edgeKernels smooth sampling e e
        = (([-1, 0, 1] : List ℚ).map (fun v => v / sampling e), 1)) ∧
    (∀ e d : Fin D, d ≠ e → edgeKernels smooth sampling e d
        = (smooth.map (fun v => v / sampling d), 1)) ∧
    getAxes (D := D) none = List.finRange D ∧
    (∀ a : Fin D, getAxes (some (Sum.inl a)) = [a]) ∧
    (∀ (n : Fin D → ℕ) (e : Fin D) (x y : Index D → ℚ) (r : ℚ) (i : Index D),
      sepApply n (edgeKernels smooth sampling e) (fun j => x j + y j) i
          = sepApply n (edgeKernels smooth sampling e) x i
            + sepApply n (edgeKernels smooth sampling e) y i
        ∧ sepApply n (edgeKernels smooth sampling e) (fun j => r * x j) i
          = r * sepApply n (edgeKernels smooth sampling e) x i) ∧
    (∀ (n : Fin D → ℕ) (axes : List (Fin D)) (x0 : Index D → ℚ) (i0 : Index D),
      ((axes.map fun e =>
          (sepApply n (edgeKernels smooth sampling e) x0 i0) ^ 2).sum ≠ 0) →
      ¬ ∀ (x y : Index D → ℚ) (i : Index D),
          edgeMagnitude n smooth sampling axes (fun j => x j + y j) i
            = edgeMagnitude n smooth sampling axes x i
              + edgeMagnitude n smooth sampling axes y i) := by
  refine ⟨?_, ?_, rfl, fun a => rfl, ?_, ?_⟩
  · intro e
    unfold edgeKernels
    rw [if_pos rfl]
  · intro e d hd
    unfold edgeKernels
    rw [if_neg hd]
  · intro n e x y r i
    exact ⟨sepApply_add n _ x y i, sepApply_smul n _ r x i⟩
  · intro n axes x0 i0 hsum hadd
    have haxne : axes ≠ [] := by
      rintro rfl
      simp at hsum
    obtain ⟨e0, he0⟩ := List.exists_mem_of_ne_nil axes haxne
    have hD : 0 < D := e0.pos
    have hneg : ∀ e : Fin D,
        sepApply n (edgeKernels smooth sampling e) (fun j => -(x0 j)) i0
          = - sepApply n (edgeKernels smooth sampling e) x0 i0 := by
      intro e
      rw [show (fun j => -(x0 j)) = (fun j => (-1 : ℚ) * x0 j) from
        funext fun j => by ring]
      rw [sepApply_smul n _ (-1) x0 i0]
      ring
    have hz0 : ∀ e : Fin D,
        sepApply n (edgeKernels smooth sampling e) (fun _ : Index D => (0:ℚ)) i0
          = 0 := by
      intro e
      rw [show (fun _ : Index D => (0:ℚ)) = (fun j => (0 : ℚ) * x0 j) from
        funext fun j => by ring]
      rw [sepApply_smul n _ 0 x0 i0, zero_mul]
    have hFz : edgeMagnitude n smooth sampling axes (fun _ : Index D => (0:ℚ)) i0
        = 0 := by
      unfold edgeMagnitude
      have hsum0 : (axes.map fun e =>
          (sepApply n (edgeKernels smooth sampling e)
            (fun _ : Index D => (0:ℚ)) i0) ^ 2).sum = 0 := by
        apply List.sum_eq_zero
        intro a ha
        obtain ⟨e, _, rfl⟩ := List.mem_map.mp ha
        rw [hz0 e]
        ring
      rw [hsum0]
      norm_num
    have hFneg : edgeMagnitude n smooth sampling axes (fun j => -(x0 j)) i0
        = edgeMagnitude n smooth sampling axes x0 i0 := by
      unfold edgeMagnitude
      have hmap : (axes.map fun e =>
            (sepApply n (edgeKernels smooth sampling e) (fun j => -(x0 j)) i0) ^ 2)
          = axes.map fun e =>
            (sepApply n (edgeKernels smooth sampling e) x0 i0) ^ 2 := by
        apply List.map_congr_left
        intro e _
        rw [hneg e]
        ring
      rw [hmap]
    have hs_pos : 0 < (axes.map fun e =>
        (sepApply n (edgeKernels smooth sampling e) x0 i0) ^ 2).sum := by
      refine lt_of_le_of_ne ?_ (Ne.symm hsum)
      apply List.sum_nonneg
      intro a ha
      obtain ⟨e, _, rfl⟩ := List.mem_map.mp ha
      positivity
    have hFpos : 0 < edgeMagnitude n smooth sampling axes x0 i0 := by
      unfold edgeMagnitude
      apply mul_pos
      · rw [one_div]
        exact inv_pos.mpr (Real.sqrt_pos.mpr (by exact_mod_cast hD))
      · exact Real.sqrt_pos.mpr (by exact_mod_cast hs_pos)
    have h1 := hadd x0 (fun j => -(x0 j)) i0
    rw [show (fun j => x0 j + -(x0 j)) = (fun _ : Index D => (0:ℚ)) from
      funext fun j => by ring] at h1
    rw [hFz, hFneg] at h1
    linarith

lemma extendZ_one {n : Fin 1 → ℕ} (x : Index 1 → ℚ) (v : ℤ) :
    extendZ n x (fun _ => v) = if 0 ≤ v ∧ v < n 0 then x (fun _ => v) else 0 := by
  by_cases h : 0 ≤ v ∧ v < n 0
  · rw [extendZ_eq_self (mem_box.mpr fun d => by
      rw [Subsingleton.elim d 0]; exact h), if_pos h]
  · rw [extendZ_eq_zero (fun hm => h (mem_box.mp hm 0)), if_neg h]

abbrev c10n : Fin 1 → ℕ := fun _ => 2

abbrev c10smp : Fin 1 → ℚ := fun _ => 1

abbrev c10x : Index 1 → ℚ := fun _ => 1

abbrev c10i : Index 1 := fun _ => 0

lemma c10_eval :
    sepApply c10n (edgeKernels [(1:ℚ)/4, 1/2, 1/4] c10smp 0) c10x c10i = 1 := by
  have hfr : List.finRange 1 = [(0 : Fin 1)] := by decide
  unfold sepApply
  rw [hfr, List.foldl_cons, List.foldl_nil]
  have hek : edgeKernels [(1:ℚ)/4, 1/2, 1/4] c10smp 0 0
      = (([-1, 0, 1] : List ℚ).map (fun v => v / c10smp 0), 1) := by
    unfold edgeKernels
    rw [if_pos rfl]
  rw [hek]
  unfold axisApply
  rw [show (([-1, 0, 1] : List ℚ).map (fun v => v / c10smp 0)).length = 3 from rfl]
  rw [Finset.sum_range_succ, Finset.sum_range_succ, Finset.sum_range_one]
  have hu : ∀ v : ℤ, Function.update c10i 0 v = fun _ : Fin 1 => v := by
    intro v
    funext d
    rw [Subsingleton.elim d 0, Function.update_same]
  rw [hu, hu, hu, extendZ_one, extendZ_one, extendZ_one]
  norm_num [c10n, c10x, c10smp, c10i]

/-- Witness for C10: a 1-D Sobel edge stencil over a box of shape 2 applied
to the constant-1 signal has output 1 at index 0, so its squared magnitude sum
is nonzero and the magnitude map over that axis list is not additive; and the
smoothing-axis kernel equality at unit sampling. -/
theorem edge_filter_structure_witness :
    (([0] : List (Fin 1)).map fun e =>
        (sepApply c10n (edgeKernels [(1:ℚ)/4, 1/2, 1/4] c10smp e) c10x c10i) ^ 2).sum
      ≠ 0 ∧
    edgeKernels (D := 2) [(1:ℚ)/4, 1/2, 1/4] (fun _ => 1) 0 1
      = ([(1:ℚ)/4, 1/2, 1/4].map (fun v => v / (1:ℚ)), 1) ∧
    ¬ ∀ (x y : Index 1 → ℚ) (i : Index 1),
        edgeMagnitude c10n [(1:ℚ)/4, 1/2, 1/4] c10smp [0] (fun j => x j + y j) i
          = edgeMagnitude c10n [(1:ℚ)/4, 1/2, 1/4] c10smp [0] x i
            + edgeMagnitude c10n [(1:ℚ)/4, 1/2, 1/4] c10smp [0] y i := by
  have hs : (([0] : List (Fin 1)).map fun e =>
      (sepApply c10n (edgeKernels [(1:ℚ)/4, 1/2, 1/4] c10smp e) c10x c10i) ^ 2).sum
        ≠ 0 := by
    simp only [List.map_cons, List.map_nil, List.sum_cons, List.sum_nil]
    rw [c10_eval]
    norm_num
  refine ⟨hs, ?_, ?_⟩
  · exact (edge_filter_structure [(1:ℚ)/4, 1/2, 1/4] (fun _ => 1)).2.1 0 1
      (by decide)
  · exact (edge_filter_structure [(1:ℚ)/4, 1/2, 1/4] c10smp).2.2.2.2.2
      c10n [0] c10x c10i hs


end PycsouStencil
